import Mathlib

/-!
Verification development for the bridge cross-section profile extraction and
hull-centering engine of `src/attribute_major_axis_local_mp.py`.

Shallow embedding conventions:
* Python floats are embedded as exact rationals (`ℚ`); `NaN` (missing
  elevation) is embedded as `Option ℚ` with `none` playing the role of `NaN`.
* `math.sqrt` is embedded as an explicit square-root oracle `sqrtQ : ℚ → ℚ`;
  theorems hypothesise that the oracle is exact on perfect squares
  (`IsExactSqrt`), which pins it to the unique non-negative root on every
  argument the sampled polylines actually produce.  `ratSqrt` is a computable
  such oracle used by the concrete witnesses.
* shapely's `parallel_offset` and `split` and the raster providers are
  side-effecting geometry/IO primitives; they enter the embedding as oracle
  parameters, while all control flow, arithmetic and data-frame manipulation
  around them is embedded faithfully from the source.
* A Python function that can raise an uncaught exception is embedded with an
  `Option`/`Except` result, `none`/`.error` marking the raise.
-/

/-- Python `a != b` on two possibly-NaN floats: `NaN != x` is `True` for every
`x` (including `NaN`), otherwise ordinary inequality.  This is the elementwise
test `df_fix['elev_grnd'] != df_fix['elev_deck']` of the source. -/
def nanNe : Option ℚ → Option ℚ → Bool
  | some a, some b => a != b
  | _, _ => true

/-- Python `abs(a - b)` with NaN propagation: if either operand is `NaN` the
result is `NaN`. -/
def pyAbsSub : Option ℚ → Option ℚ → Option ℚ
  | some a, some b => some |a - b|
  | _, _ => none

/-- Python builtin `max(a, b)` on floats, which evaluates `b > a ? b : a`;
every comparison against `NaN` is `False`, so `max(NaN, y) = NaN` and
`max(x, NaN) = x`. -/
def pyMax : Option ℚ → Option ℚ → Option ℚ
  | some x, some y => if y > x then some y else some x
  | none, _ => none
  | some x, none => some x

/-- Python `v < 0.5` where `v` may be `NaN`: every comparison against `NaN`
is `False`. -/
def pyLtHalf : Option ℚ → Bool
  | some x => decide (x < 1/2)
  | none => false

/-- pandas row-wise `DataFrame.max(axis=1)` over two columns: missing values
are skipped (`skipna=True` default); the result is missing only when both
entries are missing. -/
def pandasMax : Option ℚ → Option ℚ → Option ℚ
  | some a, some b => some (max a b)
  | some a, none => some a
  | none, some b => some b
  | none, none => none

/-- Last valid (non-missing) entry strictly before position `i`, together with
its position.  Helper for the embedding of `DataFrame.interpolate()`. -/
def lastValidBefore (l : List (Option ℚ)) (i : ℕ) : Option (ℕ × ℚ) :=
  (List.range i).foldl
    (fun acc j => match l.getD j none with
      | some a => some (j, a)
      | none => acc) none

/-- First valid (non-missing) entry strictly after position `i`, together with
its position.  Helper for the embedding of `DataFrame.interpolate()`. -/
def firstValidAfter (l : List (Option ℚ)) (i : ℕ) : Option (ℕ × ℚ) :=
  ((List.range l.length).drop (i + 1)).findSome?
    (fun j => (l.getD j none).map (fun a => (j, a)))

/-- pandas `DataFrame.interpolate()` with the default `method='linear'`
(positional) and `limit_direction='forward'`: a missing entry between a last
valid value `a` at position `p` and a next valid value `b` at position `n` is
filled with the linear mix `a + (b - a)·(i - p)/(n - p)`; a missing entry
after the last valid value is filled with that value; leading missing entries
stay missing. -/
def pandasInterpolate (l : List (Option ℚ)) : List (Option ℚ) :=
  (List.range l.length).map (fun i =>
    match l.getD i none with
    | some a => some a
    | none =>
      match lastValidBefore l i, firstValidAfter l i with
      | some (p, a), some (n, b) =>
          some (a + (b - a) * ((i : ℚ) - (p : ℚ)) / ((n : ℚ) - (p : ℚ)))
      | some (_, a), none => some a
      | none, _ => none)

/-- Round to the nearest integer, halves to the even integer (IEEE/numpy
rounding used by `DataFrame.round`). -/
def roundHalfEven (q : ℚ) : ℤ :=
  let f := ⌊q⌋
  let r := q - (f : ℚ)
  if r < 1/2 then f
  else if 1/2 < r then f + 1
  else if 2 ∣ f then f else f + 1

/-- Rounding to two decimal places as performed by
`df_smooth_ground_and_deck.round(2)` in `fn_populate_sta_ground_deck_elev`. -/
def round2 (q : ℚ) : ℚ := (roundHalfEven (q * 100) : ℚ) / 100

/-- A square-root oracle is exact when it returns the non-negative root on
every perfect square of a rational.  The true `math.sqrt` satisfies this on
every argument whose root is rational. -/
def IsExactSqrt (f : ℚ → ℚ) : Prop := ∀ r : ℚ, 0 ≤ r → f (r ^ 2) = r

/-- Computable square-root oracle: exact on perfect squares of rationals
(component-wise integer square roots of numerator and denominator). -/
def ratSqrt (q : ℚ) : ℚ := (Int.sqrt q.num : ℚ) / (Nat.sqrt q.den : ℚ)

/-- The three alternative ground-DEM providers of
`fn_populate_sta_ground_deck_elev`. -/
inductive GroundDemSource
  | service
  | cog
  | rtree
deriving DecidableEq

/-- Provider dispatch of `fn_populate_sta_ground_deck_elev` (source lines
626–643): the USGS/WCS web service when the configured string equals
`'None'`; the provided cloud-optimized GeoTIFF when the string *minus its
last three characters* (`str_input_cog_ground_dem[:-3]`) equals `"tif"`;
otherwise the rtree tile index. -/
def groundDemDispatch (s : String) : GroundDemSource :=
  if s = "None" then .service
  else if s.dropRight 3 = "tif" then .cog
  else .rtree

/-- One stationed record of the cross-section profile built by
`fn_get_profile_gdf_on_major_axis_from_dems`: horizontal distance from the
line start and the two (possibly missing) sampled elevations. -/
structure ProfileRow where
  h_distance : ℚ
  elev_grnd : Option ℚ
  elev_deck : Option ℚ
deriving DecidableEq, Inhabited

/-- Positions of the rows whose ground and deck elevation differ under the
Python `!=` test (the index list `list_ind_vals` of `fn_fix_ground_spikes`);
rows where either value is `NaN` count as differing. -/
def onDeckIdxs (rows : List ProfileRow) : List ℕ :=
  (List.range rows.length).filter
    (fun i => nanNe (rows.getD i default).elev_grnd (rows.getD i default).elev_deck)

/-- Body of the `for ind in assess` loop of `fn_fix_ground_spikes`, acting on
the current (already partially modified) deck column:
if at least one of `ind-1`, `ind+1` is not a gap index, keep the value when
`max(|deck[ind]-deck[ind-1]|, |deck[ind]-deck[ind+1]|) < 0.5` (Python `max`
and `<` on possibly-NaN floats) and set it to `NaN` otherwise; if both
neighbours are gap indices, set it to `NaN` exactly when `deck[ind-1]` is
`NaN`. -/
def spikeStep (assess : List ℕ) (deck : List (Option ℚ)) (ind : ℕ) : List (Option ℚ) :=
  if !(assess.contains (ind - 1)) || !(assess.contains (ind + 1)) then
    if pyLtHalf (pyMax (pyAbsSub (deck.getD ind none) (deck.getD (ind - 1) none))
                       (pyAbsSub (deck.getD ind none) (deck.getD (ind + 1) none))) then
      deck
    else
      deck.set ind none
  else if (deck.getD (ind - 1) none).isNone then
    deck.set ind none
  else
    deck

/-- The `for ind in assess` loop of `fn_fix_ground_spikes`, processing the gap
indices in ascending order while mutating the deck column in place. -/
def spikeLoop (assess : List ℕ) : List ℕ → List (Option ℚ) → List (Option ℚ)
  | [], deck => deck
  | ind :: rest, deck => spikeLoop assess rest (spikeStep assess deck ind)

/-- Embedding of `fn_fix_ground_spikes` (source lines 351–377). `none` models
the uncaught `IndexError` raised by `list_ind_vals[0]` when no row has
differing ground and deck elevations.  Otherwise: `assess` is the ascending
list of positions strictly between the first and last differing position that
themselves do not differ; the deck column is rewritten by the spike loop,
missing values are filled by `DataFrame.interpolate()`, and the repaired deck
column is written back onto the input rows (ground elevations untouched). -/
def fn_fix_ground_spikes (rows : List ProfileRow) : Option (List ProfileRow) :=
  match onDeckIdxs rows with
  | [] => none
  | i0 :: rest =>
    let ilast := (i0 :: rest).getLast (List.cons_ne_nil i0 rest)
    let assess := (List.range' i0 (ilast - i0)).filter (fun x => !((i0 :: rest).contains x))
    let deckFlagged := spikeLoop assess assess (rows.map (·.elev_deck))
    let deckFixed := pandasInterpolate deckFlagged
    some ((List.range rows.length).map (fun i =>
      { rows.getD i default with elev_deck := deckFixed.getD i none }))

/-- Flag test of the amended claim C3, stated per its wording on the current
(possibly already-modified) values `d` at the station, `dl` at its left and
`dr` at its right neighbour: flag exactly when the deck difference to AT LEAST
ONE immediate neighbour is ≥ 0.5, where a missing own value or missing
left-neighbour value always flags (the Python comparison chain propagates the
NaN into a failed `< 0.5` test) and a missing right-neighbour value reduces
the test to the left difference alone (Python `max(x, NaN) = x`). -/
def amendedFlag (d dl dr : Option ℚ) : Bool :=
  match d, dl, dr with
  | some x, some y, some z => decide (1/2 ≤ |x - y|) || decide (1/2 ≤ |x - z|)
  | some x, some y, none => decide (1/2 ≤ |x - y|)
  | _, _, _ => true

/-- One step of the amended claim C3 rule: when at least one immediate
neighbour position is NOT a gap index, set the station to missing exactly when
`amendedFlag` holds; when both neighbour positions are gap indices, set it to
missing exactly when the left neighbour value is currently missing. -/
def amendedStep (assess : List ℕ) (deck : List (Option ℚ)) (ind : ℕ) : List (Option ℚ) :=
  if assess.contains (ind - 1) && assess.contains (ind + 1) then
    if (deck.getD (ind - 1) none).isNone then deck.set ind none else deck
  else if amendedFlag (deck.getD ind none) (deck.getD (ind - 1) none)
      (deck.getD (ind + 1) none) then
    deck.set ind none
  else deck

/-- The amended claim C3 rule applied to the gap indices in ascending order on
the current, already-modified column. -/
def amendedLoop (assess : List ℕ) : List ℕ → List (Option ℚ) → List (Option ℚ)
  | [], deck => deck
  | ind :: rest, deck => amendedLoop assess rest (amendedStep assess deck ind)

/-- Reference spike repair following the amended claim C3 wording: same gap
index set as the source, the `amendedStep` flagging rule, then every missing
deck value replaced by positional linear interpolation between the nearest
valid neighbours. -/
def amended_spike_repair (rows : List ProfileRow) : Option (List ProfileRow) :=
  match onDeckIdxs rows with
  | [] => none
  | i0 :: rest =>
    let ilast := (i0 :: rest).getLast (List.cons_ne_nil i0 rest)
    let assess := (List.range' i0 (ilast - i0)).filter (fun x => !((i0 :: rest).contains x))
    let deckFlagged := amendedLoop assess assess (rows.map (·.elev_deck))
    let deckFixed := pandasInterpolate deckFlagged
    some ((List.range rows.length).map (fun i =>
      { rows.getD i default with elev_deck := deckFixed.getD i none }))

/-- Reference filter following claim C3's wording, for comparison with the
source behaviour: a gap station is flagged exactly when it is adjacent to an
already-flagged station OR its deck-elevation difference to BOTH immediate
neighbours (original values) exceeds 0.5; flagged stations are set to missing
and then filled by linear interpolation between nearest valid neighbours. -/
def claimFlagLoop (deck : List (Option ℚ)) : List ℕ → List ℕ → List ℕ
  | [], flagged => flagged
  | ind :: rest, flagged =>
    let adj := flagged.contains (ind - 1) || flagged.contains (ind + 1)
    let bothBig :=
      match deck.getD ind none, deck.getD (ind - 1) none, deck.getD (ind + 1) none with
      | some d, some dl, some dr => decide (1/2 < |d - dl|) && decide (1/2 < |d - dr|)
      | _, _, _ => false
    claimFlagLoop deck rest (if adj || bothBig then ind :: flagged else flagged)

/-- Reference spike repair following claim C3's wording (same gap-index set as
the source, but the claim's flagging rule); see `claimFlagLoop`. -/
def claim_spike_repair (rows : List ProfileRow) : Option (List ProfileRow) :=
  match onDeckIdxs rows with
  | [] => none
  | i0 :: rest =>
    let ilast := (i0 :: rest).getLast (List.cons_ne_nil i0 rest)
    let assess := (List.range' i0 (ilast - i0)).filter (fun x => !((i0 :: rest).contains x))
    let deck0 := rows.map (·.elev_deck)
    let flagged := claimFlagLoop deck0 assess []
    let deckFlagged := (List.range rows.length).map (fun i =>
      if flagged.contains i then none else deck0.getD i none)
    let deckFixed := pandasInterpolate deckFlagged
    some ((List.range rows.length).map (fun i =>
      { rows.getD i default with elev_deck := deckFixed.getD i none }))

/-- Side argument of shapely's `parallel_offset`. -/
inductive Side
  | left
  | right
deriving DecidableEq

/-- Outcome of one `split(shp_polygon, shp_offset_line)` call in
`fn_center_mjr_axis_on_hull`: either the call raises (any exception), or it
returns a collection of geometries, represented here by the list of their
areas (`len(split_polygons.geoms)` is the list length,
`split_polygons.geoms[i].area` the entries). -/
inductive SplitOutcome
  | err
  | ok (areas : List ℚ)
deriving DecidableEq

/-- Python `d < best` where `best` may be `float('inf')` (embedded `none`). -/
def ltInf (d : ℚ) : Option ℚ → Bool
  | none => true
  | some b => decide (d < b)

/-- State threaded through the two offset-search loops of
`fn_center_mjr_axis_on_hull`: `flt_best_difference` (`none` embeds the
initial `float('inf')`), the latest successfully computed `split_polygons`
value (`none` while the Python variable is still unbound), and the best
offset of the side currently being scanned. -/
structure OffsetSearchState where
  best_diff : Option ℚ
  prev_split : Option (List ℚ)
  best_off : ℚ
deriving DecidableEq

/-- One offset-search loop of `fn_center_mjr_axis_on_hull` over a list of
candidate offsets.  At each candidate the polygon split is attempted: when it
raises, the `except ... pass` silently keeps the PREVIOUS `split_polygons`
value, and when no split has succeeded yet the following
`len(split_polygons.geoms)` read raises `NameError` (embedded `.error ()`).
A (possibly stale) two-piece split whose absolute area difference beats
`flt_best_difference` updates the best difference and records the CURRENT
candidate as the side's best offset. -/
def runSide (sf : ℚ → SplitOutcome) : List ℚ → OffsetSearchState → Except Unit OffsetSearchState
  | [], st => .ok st
  | c :: cs, st =>
    match (match sf c with
           | .err => st.prev_split
           | .ok gs => some gs) with
    | none => .error ()
    | some gs =>
      match gs with
      | [a1, a2] =>
        if ltInf |a1 - a2| st.best_diff then
          runSide sf cs ⟨some |a1 - a2|, some gs, c⟩
        else
          runSide sf cs ⟨st.best_diff, some gs, st.best_off⟩
      | _ => runSide sf cs ⟨st.best_diff, some gs, st.best_off⟩

/-- The candidate offsets scanned by one loop: `current_value` starts at
`initial_value = 0.0` and is incremented by `step` after each body, for
`num_iterations` iterations, so candidate `j` is `j · step`. -/
def candidates (step : ℚ) (n : ℕ) : List ℚ := (List.range n).map (fun j : ℕ => (j : ℚ) * step)

/-- The two scan loops of `fn_center_mjr_axis_on_hull` (source lines
494–552): the left side is scanned first, then the right side, SHARING
`flt_best_difference` and the `split_polygons` variable across the loops;
each side's best offset starts at 0; both sides scan 100 candidates stepped
by `avg_width / 100`.  The pair of best offsets (left, right) is produced. -/
def fn_center_search (sf : Side → ℚ → SplitOutcome) (avg : ℚ) : Except Unit (ℚ × ℚ) :=
  let cands := candidates (avg / 100) 100
  match runSide (sf .left) cands ⟨none, none, 0⟩ with
  | .error _ => .error ()
  | .ok stL =>
    match runSide (sf .right) cands ⟨stL.best_diff, stL.prev_split, 0⟩ with
    | .error _ => .error ()
    | .ok stR => .ok (stL.best_off, stR.best_off)

/-- Final side/magnitude selection of `fn_center_mjr_axis_on_hull` (source
lines 555–560): the right side wins whenever its best offset is ≥ the left
one (ties included). -/
def fn_center_selection (boL boR : ℚ) : Side × ℚ :=
  if boR ≥ boL then (.right, boR) else (.left, boL)

/-- A single-row major-axis feature as consumed by
`fn_center_mjr_axis_on_hull`: the line geometry, the hull polygon
well-known text, and the average hull width. -/
structure FeatureRecord (Line : Type) where
  geometry : Line
  hull_wkt : String
  avg_width : ℚ
deriving DecidableEq

/-- Embedding of `fn_center_mjr_axis_on_hull` (source lines 482–568) over a
parallel-offset oracle `po` (shapely `line.parallel_offset(dist, side)`) and
a split oracle `sf` (`sf side dist` is the outcome of
`split(hull_polygon, line.parallel_offset(dist, side))`).  After the offset
search the source builds `shp_line_offset` and assigns it to
`gdf_singlerow.iloc[0]['geometry']` — an item assignment on the row COPY
returned by `.iloc[0]`, which does not write through to the underlying
frame (the source's own TODO on line 566 records the error) — so the
function returns the record with its geometry UNCHANGED. -/
def fn_center_mjr_axis_on_hull {Line : Type} (po : Line → ℚ → Side → Line)
    (sf : Side → ℚ → SplitOutcome) (rec : FeatureRecord Line) :
    Except Unit (FeatureRecord Line) :=
  match fn_center_search sf rec.avg_width with
  | .error _ => .error ()
  | .ok bo =>
    let sel := fn_center_selection bo.1 bo.2
    let _shp_line_offset := po rec.geometry sel.2 sel.1
    .ok rec

/-- The offset line `shp_line_offset` computed (and then lost to the copy
assignment) by `fn_center_mjr_axis_on_hull` at source line 562. -/
def fn_center_offset_line {Line : Type} (po : Line → ℚ → Side → Line)
    (sf : Side → ℚ → SplitOutcome) (rec : FeatureRecord Line) : Except Unit Line :=
  match fn_center_search sf rec.avg_width with
  | .error _ => .error ()
  | .ok bo =>
    let sel := fn_center_selection bo.1 bo.2
    .ok (po rec.geometry sel.2 sel.1)

/-- Reference offset-search loop following the spec's wording, for the
refinement part of claim C4: a candidate whose split fails, or whose split
does not yield exactly two pieces, is skipped with NO EFFECT on the tracked
best difference and best offset. -/
def cleanRunSide (sf : ℚ → SplitOutcome) : List ℚ → Option ℚ → ℚ → Option ℚ × ℚ
  | [], bd, bo => (bd, bo)
  | c :: cs, bd, bo =>
    match sf c with
    | .ok [a1, a2] =>
      if ltInf |a1 - a2| bd then cleanRunSide sf cs (some |a1 - a2|) c
      else cleanRunSide sf cs bd bo
    | _ => cleanRunSide sf cs bd bo

/-- Reference two-sided offset search following the spec's wording (left then
right, shared best difference, each side's best offset starting at 0). -/
def cleanSearch (sf : Side → ℚ → SplitOutcome) (avg : ℚ) : ℚ × ℚ :=
  let cands := candidates (avg / 100) 100
  let pL := cleanRunSide (sf .left) cands none 0
  let pR := cleanRunSide (sf .right) cands pL.1 0
  (pL.2, pR.2)

/-- One row of the merged cross-section table built by
`fn_get_smooth_deck_and_ground_profile`: station, ground elevation, smoothed
deck elevation where present, and the row-wise max of the two. -/
structure XsRow where
  sta : ℚ
  ground_elev : Option ℚ
  deck_elev : Option ℚ
  max_elev_road_deck : Option ℚ
deriving DecidableEq, Inhabited

/-- pandas `df_ground.merge(df_deck, on='sta', how='left')` followed by the
row-wise max over the two elevation columns: every ground row is matched
against the deck rows with equal station value; a ground row with no match
keeps a missing deck entry; a ground row with several matches is repeated
once per match. -/
def mergeLeft (ground : List (ℚ × Option ℚ)) (dk : List (ℚ × ℚ)) : List XsRow :=
  ground.flatMap (fun g =>
    match dk.filter (fun p => p.1 == g.1) with
    | [] => [⟨g.1, g.2, none, pandasMax g.2 none⟩]
    | ms => ms.map (fun p => ⟨g.1, g.2, some p.2, pandasMax g.2 (some p.2)⟩))

/-- Embedding of `fn_get_smooth_deck_and_ground_profile` (source lines
140–193) over a smoothing oracle `sav` standing for
`scipy.signal.savgol_filter(y, window, polyorder)` (`.error` marks a raise,
caught by the source's bare `except`, which falls back to the raw series).
The deck series is taken from the rows with no missing value
(`gdf.dropna()`), the window is `len(x_deck) // 4` incremented to the next
odd number when even, the polynomial degree is 2; the ground series is
passed through unsmoothed from ALL rows; the output table is the left merge
on station with the row-wise max column. -/
def fn_get_smooth_deck_and_ground_profile
    (sav : List ℚ → ℕ → ℕ → Except Unit (List ℚ)) (rows : List ProfileRow) : List XsRow :=
  let other := rows.filter (fun r => r.elev_grnd.isSome && r.elev_deck.isSome)
  let x_deck := other.map (·.h_distance)
  let y_deck := other.map (fun r => r.elev_deck.getD 0)
  let w0 := x_deck.length / 4
  let int_window := if w0 % 2 = 0 then w0 + 1 else w0
  let w_deck := match sav y_deck int_window 2 with
    | .ok w => w
    | .error _ => y_deck
  mergeLeft (rows.map (fun r => (r.h_distance, r.elev_grnd))) (x_deck.zip w_deck)

/-- The deck series handed to the smoothing filter: stations and deck values
of the rows with no missing entry. -/
def deckSeries (rows : List ProfileRow) : List ℚ × List ℚ :=
  let other := rows.filter (fun r => r.elev_grnd.isSome && r.elev_deck.isSome)
  (other.map (·.h_distance), other.map (fun r => r.elev_deck.getD 0))

/-- The window length handed to the smoothing filter: `len(x_deck) // 4`,
plus one when even. -/
def savgolWindow (n : ℕ) : ℕ :=
  let w0 := n / 4
  if w0 % 2 = 0 then w0 + 1 else w0

/-- The serialization step of `fn_populate_sta_ground_deck_elev` (source
lines 654–662): round every value of the smoothed cross-section table to two
decimal places, then serialize the station, ground-elevation and
max-elevation columns (`sta`, `ground_elv`, `deck_elev` output fields). -/
def fn_serialize_xs (xs : List XsRow) : List ℚ × List (Option ℚ) × List (Option ℚ) :=
  (xs.map (fun r => round2 r.sta),
   xs.map (fun r => r.ground_elev.map round2),
   xs.map (fun r => r.max_elev_road_deck.map round2))

/-- A 2D point in the line's projected coordinate reference system. -/
abbrev Pt := ℚ × ℚ

/-- Squared Euclidean distance between two points: the argument handed to
`math.sqrt` by `fn_distance` (`sq1 + sq2`). -/
def sqdist (p q : Pt) : ℚ := (p.1 - q.1) * (p.1 - q.1) + (p.2 - q.2) * (p.2 - q.2)

/-- Embedding of `fn_distance` (source lines 119–123) over the square-root
oracle `sqrtQ` standing for `math.sqrt`; shapely's `Point.distance` used for
the stations is the same Euclidean distance. -/
def fn_distance (sqrtQ : ℚ → ℚ) (p q : Pt) : ℚ := sqrtQ (sqdist p q)

/-- `n_points` of an edge of length `L`:
`int(len_current_edge // flt_xs_sample_interval)` with the sampling interval
fixed at 1 (source lines 386, 400). -/
def nPoints (L : ℚ) : ℕ := (⌊L⌋).toNat

/-- The `j`-th interpolated point on the edge from `a` to `b` divided into
`n` parts: `start + (dist/n_points)·j` componentwise (source lines 403–408). -/
def interpPt (a b : Pt) (n : ℕ) (j : ℕ) : Pt :=
  (a.1 + ((b.1 - a.1) / (n : ℚ)) * (j : ℚ), a.2 + ((b.2 - a.2) / (n : ℚ)) * (j : ℚ))

/-- The points contributed by one edge: its start, then the interior points
`j = 1 .. n_points - 1` (`np.arange(1, n_points)`); the edge's end point is
NOT included (source lines 396–408). -/
def segPts (a b : Pt) (n : ℕ) : List Pt :=
  a :: (List.range (n - 1)).map (fun t => interpPt a b n (t + 1))

/-- State of the edge loop of `fn_get_profile_gdf_on_major_axis_from_dems`:
the accumulated `(point, h_distance)` rows and `total_length`. -/
structure SamplerState where
  gdf : List (Pt × ℚ)
  total : ℚ
deriving DecidableEq

/-- One iteration of the edge loop (source lines 389–469) for the edge from
`a` to `b`, with `isLast` marking `i == len(coords) - 2`.  On the first
branch (`total_length == 0`) the accumulated frame is REPLACED by this
edge's points, each stationed by its Euclidean distance from the edge start
(`gdf.geometry[0]`); otherwise the edge's points — plus, on the last edge
only, its end point — are appended, stationed by distance from the edge
start plus `total_length`.  A non-last edge's end point is supplied as the
next edge's start; on a single-edge line the first branch applies and the
end point is never emitted. -/
def edgeStep (sqrtQ : ℚ → ℚ) (isLast : Bool) (a b : Pt) (st : SamplerState) : SamplerState :=
  let L := fn_distance sqrtQ a b
  let pts := segPts a b (nPoints L)
  if st.total = 0 then
    ⟨pts.map (fun p => (p, fn_distance sqrtQ a p)), st.total + L⟩
  else
    let pts2 := if isLast then pts ++ [b] else pts
    ⟨st.gdf ++ pts2.map (fun p => (p, fn_distance sqrtQ a p + st.total)), st.total + L⟩

/-- The edge loop of `fn_get_profile_gdf_on_major_axis_from_dems`: the edges
in order, the last one flagged. -/
def runEdges (sqrtQ : ℚ → ℚ) : List (Pt × Pt) → SamplerState → SamplerState
  | [], st => st
  | [e], st => edgeStep sqrtQ true e.1 e.2 st
  | e :: e2 :: es, st => runEdges sqrtQ (e2 :: es) (edgeStep sqrtQ false e.1 e.2 st)

/-- The consecutive edges of a polyline. -/
def edgesOf (verts : List Pt) : List (Pt × Pt) := verts.zip verts.tail

/-- The dense sampler inside `fn_get_profile_gdf_on_major_axis_from_dems`
(source lines 381–472): the ordered `(point, h_distance)` rows produced for
a polyline, before elevations are attached. -/
def fn_sample_major_axis (sqrtQ : ℚ → ℚ) (verts : List Pt) : List (Pt × ℚ) :=
  (runEdges sqrtQ (edgesOf verts) ⟨[], 0⟩).gdf

/-- Embedding of `fn_get_profile_gdf_on_major_axis_from_dems` (source lines
381–477): nearest-cell elevations from the two raster oracles are attached
to every sampled point (`none` = no value, the `NaN` left in place), and the
assembled frame is passed to `fn_fix_ground_spikes`.  `none` models an
uncaught raise: the `NameError` on `gdf` when the polyline has fewer than
two vertices, or the spike filter's `IndexError`. -/
def fn_get_profile_gdf_on_major_axis_from_dems (sqrtQ : ℚ → ℚ)
    (ground deck : Pt → Option ℚ) (verts : List Pt) : Option (List ProfileRow) :=
  match edgesOf verts with
  | [] => none
  | _ :: _ =>
    fn_fix_ground_spikes ((fn_sample_major_axis sqrtQ verts).map
      (fun pr => ⟨pr.2, ground pr.1, deck pr.1⟩))

/-- Input row of `fn_populate_sta_ground_deck_elev`: the single-row feature
(line geometry as a vertex list, hull WKT, average width) together with the
`cog_ground_dem` configuration column; `is_feet` and `flt_mjr_axis` only
parametrise the raster oracles and are absorbed by them. -/
structure MjrAxisRow where
  feature : FeatureRecord (List Pt)
  cog_ground_dem : String
deriving DecidableEq

/-- Output record of `fn_populate_sta_ground_deck_elev`: geometry plus the
three serialized columns (`sta`, `ground_elv`, `deck_elev`); the helper
columns `flt_mjr_axis`, `is_feet`, `cog_ground_dem` are dropped. -/
structure OutRecord where
  geometry : List Pt
  sta : List ℚ
  ground_elv : List (Option ℚ)
  deck_elev : List (Option ℚ)
deriving DecidableEq

/-- Embedding of `fn_populate_sta_ground_deck_elev` (source lines 573–675):
center the line on the hull (a raise there propagates), look for the bridge
deck DEM (absent file → fall through every branch, returning Python's
implicit `None`), dispatch the ground-DEM provider on the configured string,
and if the provider yields no raster (`ground_dem_local_proj is None`, the
2023.09.20 error trap) return `None`; otherwise build the profile, smooth
it, round to two decimals and serialize.  `.error` is an uncaught worker
exception, `.ok none` a skipped row. -/
def fn_populate_sta_ground_deck_elev
    (po : List Pt → ℚ → Side → List Pt) (sf : Side → ℚ → SplitOutcome)
    (sqrtQ : ℚ → ℚ) (sav : List ℚ → ℕ → ℕ → Except Unit (List ℚ))
    (deckDemExists : Bool) (deckRaster : Pt → Option ℚ)
    (provider : GroundDemSource → Option (Pt → Option ℚ))
    (row : MjrAxisRow) : Except Unit (Option OutRecord) :=
  match fn_center_mjr_axis_on_hull po sf row.feature with
  | .error _ => .error ()
  | .ok centered =>
    if deckDemExists then
      match provider (groundDemDispatch row.cog_ground_dem) with
      | none => .ok none
      | some ground =>
        match fn_get_profile_gdf_on_major_axis_from_dems sqrtQ ground deckRaster
            centered.geometry with
        | none => .error ()
        | some rows =>
          let xs := fn_get_smooth_deck_and_ground_profile sav rows
          let s := fn_serialize_xs xs
          .ok (some ⟨centered.geometry, s.1, s.2.1, s.2.2⟩)
    else .ok none

/-- The result-collection step of `fn_attribute_mjr_axis` (source lines
883–884): the `None` results of the worker pool are dropped before the
merged geodataframe is assembled. -/
def fn_attribute_filter_results {α : Type} (l : List (Option α)) : List α := l.filterMap id

/-- Closed form of one pass of `edgeStep` on a segment: the intermediate points
of the segment from `a` to `b` paired with their stations, starting at `base`.
Proved equal to the source loop by `runEdges_eq_restOut`. -/
def segOut (sqrtQ : ℚ → ℚ) (a b : Pt) (base : ℚ) : List (Pt × ℚ) :=
  (segPts a b (nPoints (fn_distance sqrtQ a b))).map
    (fun p => (p, fn_distance sqrtQ a p + base))

/-- Closed form of the source sampling loop `runEdges` over the remaining edges
(every edge after the first), accumulating stations from `base`; the final
vertex is emitted only for the last edge, mirroring the source's
`if i == len(edges) - 1` branch. -/
def restOut (sqrtQ : ℚ → ℚ) : List (Pt × Pt) → ℚ → List (Pt × ℚ)
  | [], _ => []
  | [e], base => segOut sqrtQ e.1 e.2 base ++ [(e.2, fn_distance sqrtQ e.1 e.2 + base)]
  | e :: e2 :: es, base =>
      segOut sqrtQ e.1 e.2 base ++
        restOut sqrtQ (e2 :: es) (base + fn_distance sqrtQ e.1 e.2)

theorem ratSqrt_exact : IsExactSqrt ratSqrt := by
  intro r hr
  have hnum : (r ^ 2).num = r.num * r.num := by
    rw [pow_two, Rat.mul_self_num]
  have hden : (r ^ 2).den = r.den * r.den := by
    rw [pow_two, Rat.mul_self_den]
  unfold ratSqrt
  rw [hnum, hden, Int.sqrt_eq, Nat.sqrt_eq]
  have hnn : (0 : ℤ) ≤ r.num := Rat.num_nonneg.mpr hr
  rw [Int.natAbs_of_nonneg hnn]
  exact Rat.num_div_den r

theorem nanNe_eq_false_iff (a b : Option ℚ) :
    nanNe a b = false ↔ ∃ v, a = some v ∧ b = some v := by
  cases a <;> cases b <;> simp [nanNe]
  exact eq_comm

theorem onDeckIdxs_eq_nil_iff (rows : List ProfileRow) :
    onDeckIdxs rows = [] ↔ ∀ r ∈ rows, nanNe r.elev_grnd r.elev_deck = false := by
  unfold onDeckIdxs
  rw [List.filter_eq_nil_iff]
  constructor
  · intro h r hr
    obtain ⟨i, hi, hget⟩ := List.mem_iff_getElem.mp hr
    have := h i (List.mem_range.mpr hi)
    rw [List.getD_eq_getElem _ _ hi, hget] at this
    simpa using this
  · intro h i hi
    have hi' := List.mem_range.mp hi
    rw [List.getD_eq_getElem _ _ hi']
    simpa using h _ (List.getElem_mem hi')

/-- Claim C10: `fn_fix_ground_spikes` raises an uncaught `IndexError`
(embedded as `none`) exactly on the profiles whose every station has a valid
ground reading equal to its deck reading — i.e. whose on-deck index set is
empty — and returns a profile in every other case. -/
theorem c10_spike_filter_partial (rows : List ProfileRow) :
    fn_fix_ground_spikes rows = none ↔
      ∀ r ∈ rows, ∃ v, r.elev_grnd = some v ∧ r.elev_deck = some v := by
  have hmain : fn_fix_ground_spikes rows = none ↔ onDeckIdxs rows = [] := by
    unfold fn_fix_ground_spikes
    cases h : onDeckIdxs rows with
    | nil => simp
    | cons a t => simp
  rw [hmain, onDeckIdxs_eq_nil_iff]
  constructor
  · intro h r hr
    exact (nanNe_eq_false_iff _ _).mp (h r hr)
  · intro h r hr
    exact (nanNe_eq_false_iff _ _).mpr (h r hr)

/-- Claim C3, counterexample: a profile with an isolated gap station (index 2)
whose deck value differs from its left neighbour by 6 (≥ the 0.5 threshold)
but from its right neighbour by 0: the source flags and interpolates it
(result 103), while the claim's rule — flag only when the difference to BOTH
neighbours exceeds 0.5 — would keep it at 106. -/
theorem c3_counterexample :
    (fn_fix_ground_spikes
        [⟨0, some 0, some 100⟩, ⟨1, some 0, some 100⟩, ⟨2, some 106, some 106⟩,
         ⟨3, some 0, some 106⟩, ⟨4, some 0, some 106⟩]).map
      (fun l => (l.getD 2 default).elev_deck) = some (some 103) ∧
    (claim_spike_repair
        [⟨0, some 0, some 100⟩, ⟨1, some 0, some 100⟩, ⟨2, some 106, some 106⟩,
         ⟨3, some 0, some 106⟩, ⟨4, some 0, some 106⟩]).map
      (fun l => (l.getD 2 default).elev_deck) = some (some 106) ∧
    (103 : ℚ) ≠ 106 := by
  refine ⟨?_, ?_, by norm_num⟩
  · norm_num [fn_fix_ground_spikes, onDeckIdxs, nanNe, spikeLoop, spikeStep, pandasInterpolate,
      lastValidBefore, firstValidAfter, pyMax, pyAbsSub, pyLtHalf, List.range_succ, List.range',
      List.getLast]
  · norm_num [claim_spike_repair, onDeckIdxs, nanNe, claimFlagLoop, pandasInterpolate,
      lastValidBefore, firstValidAfter, List.range_succ, List.range', List.getLast]

theorem pyMax_some_some (a b : ℚ) : pyMax (some a) (some b) = some (max a b) := by
  by_cases h : b > a
  · simp [pyMax, h, max_eq_right (le_of_lt h)]
  · simp [pyMax, h, max_eq_left (not_lt.mp h)]

theorem pyMax_none (b : Option ℚ) : pyMax none b = none := by
  cases b <;> rfl

theorem pyMax_some_none (a : ℚ) : pyMax (some a) none = some a := rfl

theorem decide_lt_eq_not_le (u v : ℚ) : decide (u < v) = !decide (v ≤ u) := by
  by_cases h : u < v
  · simp [h, not_le.mpr h]
  · simp [h, not_lt.mp h]

theorem pyLtHalf_pyMax_absSub (a b c : Option ℚ) :
    pyLtHalf (pyMax (pyAbsSub a b) (pyAbsSub a c)) = !(amendedFlag a b c) := by
  rcases a with _ | x
  · rcases b with _ | y <;> rcases c with _ | z <;> rfl
  rcases b with _ | y
  · rcases c with _ | z <;> rfl
  rcases c with _ | z
  · simp [pyLtHalf, pyMax, pyAbsSub, amendedFlag, decide_lt_eq_not_le]
  · rw [show pyAbsSub (some x) (some y) = some |x - y| from rfl,
      show pyAbsSub (some x) (some z) = some |x - z| from rfl, pyMax_some_some]
    simp [pyLtHalf, amendedFlag, max_lt_iff, decide_lt_eq_not_le]

theorem spikeStep_eq_amendedStep (assess : List ℕ) (deck : List (Option ℚ)) (ind : ℕ) :
    spikeStep assess deck ind = amendedStep assess deck ind := by
  unfold spikeStep amendedStep
  rw [pyLtHalf_pyMax_absSub]
  by_cases h1 : ind - 1 ∈ assess <;> by_cases h2 : ind + 1 ∈ assess <;>
    cases hA : amendedFlag (deck.getD ind none) (deck.getD (ind - 1) none)
      (deck.getD (ind + 1) none) <;>
    simp [h1, h2, hA]

theorem spikeLoop_eq_amendedLoop (assess : List ℕ) :
    ∀ (l : List ℕ) (deck : List (Option ℚ)),
      spikeLoop assess l deck = amendedLoop assess l deck := by
  intro l
  induction l with
  | nil => intro deck; rfl
  | cons i rest ih =>
    intro deck
    simp only [spikeLoop, amendedLoop, spikeStep_eq_amendedStep, ih]

/-- Claim C3 as amended.  Part 0 (universal): on EVERY profile the source
filter `fn_fix_ground_spikes` coincides with the reference repair
`amended_spike_repair` that follows the amended wording — within the gap
indices, processed in ascending order on the current values, a station with at
least one on-deck neighbour position is set to missing exactly when
`amendedFlag` holds (difference ≥ 0.5 to at least one immediate neighbour,
missing own/left value always flagging, missing right value ignored), a
station with two gap neighbour positions exactly when its left neighbour value
is currently missing, and afterwards missing values are filled by positional
linear interpolation.  In particular: a gap station between two on-deck
neighbours is flagged and interpolated when the difference to at least one
neighbour is ≥ 0.5 (part 1), kept when both differences are < 0.5 (part 2),
and of two adjacent gap stations the first flagged by the threshold flags the
second through its now-missing left neighbour, both being replaced by the
interpolation between the nearest valid readings (part 3). -/
theorem c3_amended (g0 g1 g3 g4 d0 d1 d3 d4 x : ℚ)
    (e0 : g0 ≠ d0) (e1 : g1 ≠ d1) (e3 : g3 ≠ d3) (e4 : g4 ≠ d4)
    (k0 k1 k4 k5 c0 c1 c4 c5 y2 y3 : ℚ)
    (f0 : k0 ≠ c0) (f1 : k1 ≠ c1) (f4 : k4 ≠ c4) (f5 : k5 ≠ c5) :
    (∀ rows : List ProfileRow,
      fn_fix_ground_spikes rows = amended_spike_repair rows) ∧
    (¬ max |x - d1| |x - d3| < 1/2 →
      fn_fix_ground_spikes
          [⟨0, some g0, some d0⟩, ⟨1, some g1, some d1⟩, ⟨2, some x, some x⟩,
           ⟨3, some g3, some d3⟩, ⟨4, some g4, some d4⟩] =
        some [⟨0, some g0, some d0⟩, ⟨1, some g1, some d1⟩,
           ⟨2, some x, some ((d1 + d3)/2)⟩, ⟨3, some g3, some d3⟩, ⟨4, some g4, some d4⟩]) ∧
    (max |x - d1| |x - d3| < 1/2 →
      fn_fix_ground_spikes
          [⟨0, some g0, some d0⟩, ⟨1, some g1, some d1⟩, ⟨2, some x, some x⟩,
           ⟨3, some g3, some d3⟩, ⟨4, some g4, some d4⟩] =
        some [⟨0, some g0, some d0⟩, ⟨1, some g1, some d1⟩, ⟨2, some x, some x⟩,
           ⟨3, some g3, some d3⟩, ⟨4, some g4, some d4⟩]) ∧
    (¬ max |y2 - c1| |y2 - y3| < 1/2 →
      fn_fix_ground_spikes
          [⟨0, some k0, some c0⟩, ⟨1, some k1, some c1⟩, ⟨2, some y2, some y2⟩,
           ⟨3, some y3, some y3⟩, ⟨4, some k4, some c4⟩, ⟨5, some k5, some c5⟩] =
        some [⟨0, some k0, some c0⟩, ⟨1, some k1, some c1⟩,
           ⟨2, some y2, some (c1 + (c4 - c1)/3)⟩, ⟨3, some y3, some (c1 + (c4 - c1)*2/3)⟩,
           ⟨4, some k4, some c4⟩, ⟨5, some k5, some c5⟩]) := by
  refine ⟨?_, fun hth => ?_, fun hth => ?_, fun hth => ?_⟩
  · intro rows
    unfold fn_fix_ground_spikes amended_spike_repair
    cases onDeckIdxs rows with
    | nil => rfl
    | cons i0 rest => simp only [spikeLoop_eq_amendedLoop]
  · simp only [fn_fix_ground_spikes, onDeckIdxs, nanNe, List.length_cons, List.length_nil,
      List.range_succ, List.range_zero]
    norm_num [List.filter_cons, bne_iff_ne, e0, e1, e3, e4, List.getLast, List.range',
      spikeLoop, spikeStep, pyMax_some_some, pyMax_none, pyMax_some_none, pyAbsSub, pyLtHalf,
      hth, pandasInterpolate, lastValidBefore, firstValidAfter, List.range_succ]
    ring_nf
  · simp only [fn_fix_ground_spikes, onDeckIdxs, nanNe, List.length_cons, List.length_nil,
      List.range_succ, List.range_zero]
    norm_num [List.filter_cons, bne_iff_ne, e0, e1, e3, e4, List.getLast, List.range',
      spikeLoop, spikeStep, pyMax_some_some, pyMax_none, pyMax_some_none, pyAbsSub, pyLtHalf,
      hth, pandasInterpolate, lastValidBefore, firstValidAfter, List.range_succ]
  · simp only [fn_fix_ground_spikes, onDeckIdxs, nanNe, List.length_cons, List.length_nil,
      List.range_succ, List.range_zero]
    norm_num [List.filter_cons, bne_iff_ne, f0, f1, f4, f5, List.getLast, List.range',
      spikeLoop, spikeStep, pyMax_some_some, pyMax_none, pyMax_some_none, pyAbsSub, pyLtHalf,
      hth, pandasInterpolate, lastValidBefore, firstValidAfter, List.range_succ]

/-- Witness for `c3_amended` at concrete profiles: the universal refinement
instantiated on a profile with a three-station gap run (exercising the
both-neighbours-gap branch); an isolated 6-unit outlier between decks 100 and
106 replaced by 103; an isolated flat gap kept; two adjacent outliers at 106
between decks at 100 both replaced by 100. -/
theorem c3_amended_witness :
    fn_fix_ground_spikes
        [⟨0, some 0, some 100⟩, ⟨1, some 0, some 100⟩, ⟨2, some 9, some 9⟩,
         ⟨3, some 9, some 9⟩, ⟨4, some 9, some 9⟩, ⟨5, some 0, some 100⟩,
         ⟨6, some 0, some 100⟩] =
      amended_spike_repair
        [⟨0, some 0, some 100⟩, ⟨1, some 0, some 100⟩, ⟨2, some 9, some 9⟩,
         ⟨3, some 9, some 9⟩, ⟨4, some 9, some 9⟩, ⟨5, some 0, some 100⟩,
         ⟨6, some 0, some 100⟩] ∧
    fn_fix_ground_spikes
        [⟨0, some 0, some 100⟩, ⟨1, some 0, some 100⟩, ⟨2, some 106, some 106⟩,
         ⟨3, some 0, some 106⟩, ⟨4, some 0, some 106⟩] =
      some [⟨0, some 0, some 100⟩, ⟨1, some 0, some 100⟩,
         ⟨2, some 106, some ((100 + 106)/2)⟩, ⟨3, some 0, some 106⟩, ⟨4, some 0, some 106⟩] ∧
    fn_fix_ground_spikes
        [⟨0, some 0, some 100⟩, ⟨1, some 0, some 100⟩, ⟨2, some 100, some 100⟩,
         ⟨3, some 0, some 100⟩, ⟨4, some 0, some 100⟩] =
      some [⟨0, some 0, some 100⟩, ⟨1, some 0, some 100⟩, ⟨2, some 100, some 100⟩,
         ⟨3, some 0, some 100⟩, ⟨4, some 0, some 100⟩] ∧
    fn_fix_ground_spikes
        [⟨0, some 0, some 100⟩, ⟨1, some 0, some 100⟩, ⟨2, some 106, some 106⟩,
         ⟨3, some 106, some 106⟩, ⟨4, some 0, some 100⟩, ⟨5, some 0, some 100⟩] =
      some [⟨0, some 0, some 100⟩, ⟨1, some 0, some 100⟩,
         ⟨2, some 106, some (100 + (100 - 100)/3)⟩, ⟨3, some 106, some (100 + (100 - 100)*2/3)⟩,
         ⟨4, some 0, some 100⟩, ⟨5, some 0, some 100⟩] := by
  refine ⟨?_, ?_, ?_, ?_⟩
  · exact (c3_amended 0 0 0 0 100 100 106 106 106 (by norm_num) (by norm_num) (by norm_num)
      (by norm_num) 0 0 0 0 100 100 100 100 106 106 (by norm_num) (by norm_num) (by norm_num)
      (by norm_num)).1
      [⟨0, some 0, some 100⟩, ⟨1, some 0, some 100⟩, ⟨2, some 9, some 9⟩,
       ⟨3, some 9, some 9⟩, ⟨4, some 9, some 9⟩, ⟨5, some 0, some 100⟩,
       ⟨6, some 0, some 100⟩]
  · exact (c3_amended 0 0 0 0 100 100 106 106 106 (by norm_num) (by norm_num) (by norm_num)
      (by norm_num) 0 0 0 0 100 100 100 100 106 106 (by norm_num) (by norm_num) (by norm_num)
      (by norm_num)).2.1 (by norm_num)
  · exact (c3_amended 0 0 0 0 100 100 100 100 100 (by norm_num) (by norm_num) (by norm_num)
      (by norm_num) 0 0 0 0 100 100 100 100 106 106 (by norm_num) (by norm_num) (by norm_num)
      (by norm_num)).2.2.1 (by norm_num)
  · exact (c3_amended 0 0 0 0 100 100 106 106 106 (by norm_num) (by norm_num) (by norm_num)
      (by norm_num) 0 0 0 0 100 100 100 100 106 106 (by norm_num) (by norm_num) (by norm_num)
      (by norm_num)).2.2.2 (by norm_num)

theorem runSide_eq_clean (sf : ℚ → SplitOutcome) :
    ∀ (cs : List ℚ) (bd : Option ℚ) (bo : ℚ) (gs : List ℚ),
      (∀ a1 a2, gs = [a1, a2] → ∃ b, bd = some b ∧ b ≤ |a1 - a2|) →
      ∃ st', runSide sf cs ⟨bd, some gs, bo⟩ = .ok st' ∧
        st'.best_diff = (cleanRunSide sf cs bd bo).1 ∧
        st'.best_off = (cleanRunSide sf cs bd bo).2 ∧
        ∃ gs', st'.prev_split = some gs' ∧
          (∀ a1 a2, gs' = [a1, a2] → ∃ b, st'.best_diff = some b ∧ b ≤ |a1 - a2|) := by
  intro cs
  induction cs with
  | nil =>
    intro bd bo gs hpb
    exact ⟨⟨bd, some gs, bo⟩, rfl, rfl, rfl, gs, rfl, hpb⟩
  | cons c cs ih =>
    intro bd bo gs hpb
    cases hsf : sf c with
    | err =>
      match gs, hpb with
      | [a1, a2], hpb =>
        obtain ⟨b, hb, hble⟩ := hpb a1 a2 rfl
        have hlt : ltInf |a1 - a2| bd = false := by
          subst hb; simp [ltInf, not_lt.mpr hble]
        simp only [runSide, cleanRunSide, hsf, hlt, Bool.false_eq_true, if_false]
        exact ih bd bo [a1, a2] (fun x y hxy => by
          obtain ⟨rfl, rfl⟩ : a1 = x ∧ a2 = y := by
            injection hxy with h1 h2; injection h2 with h2 _; exact ⟨h1, h2⟩
          exact ⟨b, hb, hble⟩)
      | [], hpb =>
        simp only [runSide, cleanRunSide, hsf]
        exact ih bd bo [] hpb
      | [a1], hpb =>
        simp only [runSide, cleanRunSide, hsf]
        exact ih bd bo [a1] hpb
      | (a1 :: a2 :: a3 :: rest), hpb =>
        simp only [runSide, cleanRunSide, hsf]
        exact ih bd bo _ (by intro x y h; simp at h)
    | ok gs' =>
      match gs' with
      | [a1, a2] =>
        by_cases hlt : ltInf |a1 - a2| bd = true
        · simp only [runSide, cleanRunSide, hsf, hlt, if_true]
          exact ih (some |a1 - a2|) c [a1, a2] (fun x y hxy => by
            obtain ⟨rfl, rfl⟩ : a1 = x ∧ a2 = y := by
              injection hxy with h1 h2; injection h2 with h2 _; exact ⟨h1, h2⟩
            exact ⟨|a1 - a2|, rfl, le_refl _⟩)
        · have hlt' : ltInf |a1 - a2| bd = false := by
            cases h : ltInf |a1 - a2| bd
            · rfl
            · exact absurd h hlt
          have hbd : ∃ b, bd = some b ∧ b ≤ |a1 - a2| := by
            cases bd with
            | none => simp [ltInf] at hlt'
            | some b =>
              refine ⟨b, rfl, ?_⟩
              simpa [ltInf, not_lt] using hlt'
          simp only [runSide, cleanRunSide, hsf, hlt', Bool.false_eq_true, if_false]
          exact ih bd bo [a1, a2] (fun x y hxy => by
            obtain ⟨rfl, rfl⟩ : a1 = x ∧ a2 = y := by
              injection hxy with h1 h2; injection h2 with h2 _; exact ⟨h1, h2⟩
            exact hbd)
      | [] =>
        simp only [runSide, cleanRunSide, hsf]
        exact ih bd bo [] (by intro x y h; simp at h)
      | [a1] =>
        simp only [runSide, cleanRunSide, hsf]
        exact ih bd bo [a1] (by intro x y h; simp at h)
      | (a1 :: a2 :: a3 :: rest) =>
        simp only [runSide, cleanRunSide, hsf]
        exact ih bd bo _ (by intro x y h; simp at h)

theorem runSide_first (sf : ℚ → SplitOutcome) (c : ℚ) (cs : List ℚ)
    (h : sf c ≠ .err) :
    ∃ st', runSide sf (c :: cs) ⟨none, none, 0⟩ = .ok st' ∧
      st'.best_diff = (cleanRunSide sf (c :: cs) none 0).1 ∧
      st'.best_off = (cleanRunSide sf (c :: cs) none 0).2 ∧
      ∃ gs', st'.prev_split = some gs' ∧
        (∀ a1 a2, gs' = [a1, a2] → ∃ b, st'.best_diff = some b ∧ b ≤ |a1 - a2|) := by
  cases hsf : sf c with
  | err => exact absurd hsf h
  | ok gs' =>
    match gs' with
    | [a1, a2] =>
      have hlt : ltInf |a1 - a2| none = true := rfl
      simp only [runSide, cleanRunSide, hsf, hlt, if_true]
      exact runSide_eq_clean sf cs (some |a1 - a2|) c [a1, a2] (fun x y hxy => by
        obtain ⟨rfl, rfl⟩ : a1 = x ∧ a2 = y := by
          injection hxy with h1 h2; injection h2 with h2 _; exact ⟨h1, h2⟩
        exact ⟨|a1 - a2|, rfl, le_refl _⟩)
    | [] =>
      simp only [runSide, cleanRunSide, hsf]
      exact runSide_eq_clean sf cs none 0 [] (by intro x y h'; simp at h')
    | [a1] =>
      simp only [runSide, cleanRunSide, hsf]
      exact runSide_eq_clean sf cs none 0 [a1] (by intro x y h'; simp at h')
    | (a1 :: a2 :: a3 :: rest) =>
      simp only [runSide, cleanRunSide, hsf]
      exact runSide_eq_clean sf cs none 0 _ (by intro x y h'; simp at h')

theorem candidates_hundred_cons (step : ℚ) :
    ∃ rest, candidates step 100 = 0 :: rest := by
  refine ⟨((List.range 99).map Nat.succ).map (fun j : ℕ => (j : ℚ) * step), ?_⟩
  unfold candidates
  rw [show (100:ℕ) = 99 + 1 from rfl, List.range_succ_eq_map, List.map_cons]
  simp

theorem fn_center_search_ok (sf : Side → ℚ → SplitOutcome) (avg : ℚ)
    (h : sf .left 0 ≠ .err) :
    fn_center_search sf avg = .ok (cleanSearch sf avg) := by
  obtain ⟨rest, hc⟩ := candidates_hundred_cons (avg / 100)
  unfold fn_center_search cleanSearch
  rw [hc]
  obtain ⟨stL, hL, hLd, hLo, gsL, hLp, hLpb⟩ := runSide_first (sf .left) 0 rest h
  obtain ⟨stR, hR, hRd, hRo, gsR, hRp, hRpb⟩ :=
    runSide_eq_clean (sf .right) (0 :: rest) stL.best_diff 0 gsL (by
      intro a1 a2 hgs
      exact hLpb a1 a2 hgs)
  simp only [hL, hLp]
  rw [hR]
  simp only [hLo, hRo, hLd]

theorem fn_center_search_err (sf : Side → ℚ → SplitOutcome) (avg : ℚ)
    (h : sf .left 0 = .err) :
    fn_center_search sf avg = .error () := by
  obtain ⟨rest, hc⟩ := candidates_hundred_cons (avg / 100)
  unfold fn_center_search
  rw [hc]
  simp only [runSide, h]

theorem cleanRunSide_no_two (sf : ℚ → SplitOutcome)
    (h : ∀ c a1 a2, sf c ≠ .ok [a1, a2]) :
    ∀ (cs : List ℚ) (bd : Option ℚ) (bo : ℚ), cleanRunSide sf cs bd bo = (bd, bo) := by
  intro cs
  induction cs with
  | nil => intro bd bo; rfl
  | cons c cs ih =>
    intro bd bo
    cases hsf : sf c with
    | err => simp only [cleanRunSide, hsf]; exact ih bd bo
    | ok gs =>
      match gs with
      | [a1, a2] => exact absurd hsf (h c a1 a2)
      | [] => simp only [cleanRunSide, hsf]; exact ih bd bo
      | [a1] => simp only [cleanRunSide, hsf]; exact ih bd bo
      | (a1 :: a2 :: a3 :: rest) => simp only [cleanRunSide, hsf]; exact ih bd bo

theorem runSide_best_off_carry (sf : ℚ → SplitOutcome) :
    ∀ (cs : List ℚ) (st st' : OffsetSearchState), runSide sf cs st = .ok st' →
      st'.best_off = st.best_off ∨ st'.best_off ∈ cs := by
  intro cs
  induction cs with
  | nil =>
    intro st st' h
    simp only [runSide] at h
    injection h with h
    exact Or.inl (by rw [h])
  | cons c cs ih =>
    intro st st' h
    simp only [runSide] at h
    rcases hcur : (match sf c with
        | SplitOutcome.err => st.prev_split
        | SplitOutcome.ok gs => some gs) with _ | gs
    · rw [hcur] at h; exact absurd h (by simp)
    · rw [hcur] at h
      match gs, h with
      | [a1, a2], h =>
        dsimp only at h
        by_cases hlt : ltInf |a1 - a2| st.best_diff = true
        · rw [if_pos hlt] at h
          rcases ih _ _ h with h' | h'
          · exact Or.inr (by simp [h'])
          · exact Or.inr (List.mem_cons_of_mem _ h')
        · rw [if_neg hlt] at h
          rcases ih _ _ h with h' | h'
          · exact Or.inl h'
          · exact Or.inr (List.mem_cons_of_mem _ h')
      | [], h =>
        rcases ih _ _ h with h' | h'
        · exact Or.inl h'
        · exact Or.inr (List.mem_cons_of_mem _ h')
      | [a1], h =>
        rcases ih _ _ h with h' | h'
        · exact Or.inl h'
        · exact Or.inr (List.mem_cons_of_mem _ h')
      | (a1 :: a2 :: a3 :: r), h =>
        rcases ih _ _ h with h' | h'
        · exact Or.inl h'
        · exact Or.inr (List.mem_cons_of_mem _ h')

theorem mem_candidates_bounds (avg : ℚ) (havg : 0 ≤ avg) :
    ∀ c ∈ candidates (avg / 100) 100, 0 ≤ c ∧ c ≤ avg := by
  intro c hc
  unfold candidates at hc
  obtain ⟨j, hj, rfl⟩ :=
    (@List.mem_map ℕ ℚ c (fun j => (j : ℚ) * (avg / 100)) (List.range 100)).mp hc
  rw [List.mem_range] at hj
  have hj' : (j : ℚ) ≤ 100 := by exact_mod_cast le_of_lt hj
  have hstep : (0 : ℚ) ≤ avg / 100 := by positivity
  constructor
  · positivity
  · calc (j : ℚ) * (avg / 100) ≤ 100 * (avg / 100) :=
        mul_le_mul_of_nonneg_right hj' hstep
      _ = avg := by ring

/-- Claim C4 as amended: the offset search raises (the `NameError` on the
unbound `split_polygons`) exactly when the split of the very first candidate
(offset 0, left side) fails; when the first split call does not fail, every
later split failure and every split with a piece count other than two is
discarded with no effect on the tracked best offsets (the search refines the
spec-worded `cleanSearch`), the search and the function return without
raising, and if no candidate on either side ever splits the polygon into
exactly two pieces both best offsets default to 0 and the computed final
line is the original line offset by 0 toward the right side. -/
theorem c4_amended {Line : Type} (po : Line → ℚ → Side → Line)
    (sf : Side → ℚ → SplitOutcome) (rec : FeatureRecord Line) :
    (fn_center_search sf rec.avg_width = .error () ↔ sf .left 0 = .err) ∧
    (sf .left 0 ≠ .err →
      fn_center_search sf rec.avg_width = .ok (cleanSearch sf rec.avg_width) ∧
      fn_center_mjr_axis_on_hull po sf rec = .ok rec) ∧
    (sf .left 0 ≠ .err → (∀ side c a1 a2, sf side c ≠ .ok [a1, a2]) →
      fn_center_search sf rec.avg_width = .ok (0, 0) ∧
      fn_center_offset_line po sf rec = .ok (po rec.geometry 0 .right)) := by
  have hclean0 : ∀ h : sf .left 0 ≠ .err, (∀ side c a1 a2, sf side c ≠ .ok [a1, a2]) →
      cleanSearch sf rec.avg_width = (0, 0) := by
    intro h hno
    unfold cleanSearch
    simp only [cleanRunSide_no_two (sf .left) (fun c a1 a2 => hno .left c a1 a2),
      cleanRunSide_no_two (sf .right) (fun c a1 a2 => hno .right c a1 a2)]
  refine ⟨⟨?_, fn_center_search_err sf rec.avg_width⟩, fun h => ⟨?_, ?_⟩, fun h hno => ⟨?_, ?_⟩⟩
  · intro herr
    by_contra hne
    rw [fn_center_search_ok sf rec.avg_width hne] at herr
    exact Except.noConfusion herr
  · exact fn_center_search_ok sf rec.avg_width h
  · unfold fn_center_mjr_axis_on_hull
    rw [fn_center_search_ok sf rec.avg_width h]
  · rw [fn_center_search_ok sf rec.avg_width h, hclean0 h hno]
  · unfold fn_center_offset_line
    rw [fn_center_search_ok sf rec.avg_width h, hclean0 h hno]
    show Except.ok (po rec.geometry (fn_center_selection 0 0).2 (fn_center_selection 0 0).1) = _
    rw [show fn_center_selection 0 0 = (.right, 0) from if_pos le_rfl]

/-- Claim C6: the offset candidates are the 100 equal steps `j·(avg/100)`,
`j = 0..99`; after both directions are scanned the final line is offset
toward the side whose winning offset is larger, with ties broken toward the
right side; and both winning offsets (hence the chosen one) lie within
`[0, avg_width]`. -/
theorem c6_offset_selection {Line : Type} (po : Line → ℚ → Side → Line)
    (sf : Side → ℚ → SplitOutcome) (rec : FeatureRecord Line) (boL boR : ℚ)
    (havg : 0 ≤ rec.avg_width)
    (hok : fn_center_search sf rec.avg_width = .ok (boL, boR)) :
    ((candidates (rec.avg_width / 100) 100).length = 100 ∧
      (∀ j, j < 100 → (candidates (rec.avg_width / 100) 100).getD j 0
          = (j : ℚ) * (rec.avg_width / 100))) ∧
    (boR ≥ boL →
      fn_center_offset_line po sf rec = .ok (po rec.geometry boR .right)) ∧
    (boL > boR →
      fn_center_offset_line po sf rec = .ok (po rec.geometry boL .left)) ∧
    (0 ≤ boL ∧ boL ≤ rec.avg_width) ∧ (0 ≤ boR ∧ boR ≤ rec.avg_width) := by
  have hbounds : (0 ≤ boL ∧ boL ≤ rec.avg_width) ∧ (0 ≤ boR ∧ boR ≤ rec.avg_width) := by
    unfold fn_center_search at hok
    cases hL : runSide (sf Side.left) (candidates (rec.avg_width / 100) 100)
        ⟨none, none, 0⟩ with
    | error e => simp only [hL] at hok; exact Except.noConfusion hok
    | ok stL =>
      cases hR : runSide (sf Side.right) (candidates (rec.avg_width / 100) 100)
          ⟨stL.best_diff, stL.prev_split, 0⟩ with
      | error e => simp only [hL, hR] at hok; exact Except.noConfusion hok
      | ok stR =>
        simp only [hL, hR] at hok
        injection hok with hok
        have hL' : stL.best_off = boL := congrArg Prod.fst hok
        have hR' : stR.best_off = boR := congrArg Prod.snd hok
        constructor
        · rcases runSide_best_off_carry (sf Side.left) _ _ _ hL with h' | h'
          · rw [← hL', h']; exact ⟨le_rfl, havg⟩
          · rw [← hL']; exact mem_candidates_bounds rec.avg_width havg _ h'
        · rcases runSide_best_off_carry (sf Side.right) _ _ _ hR with h' | h'
          · rw [← hR', h']; exact ⟨le_rfl, havg⟩
          · rw [← hR']; exact mem_candidates_bounds rec.avg_width havg _ h'
  have hlen : (candidates (rec.avg_width / 100) 100).length = 100 := by
    unfold candidates
    rw [List.length_map, List.length_range]
  refine ⟨⟨hlen, ?_⟩, ?_, ?_, hbounds.1, hbounds.2⟩
  · intro j hj
    have hj' : j < (candidates (rec.avg_width / 100) 100).length := by
      rw [hlen]; exact hj
    rw [List.getD_eq_getElem _ _ hj']
    unfold candidates
    rw [List.getElem_map, List.getElem_range]
  · intro hge
    unfold fn_center_offset_line
    rw [hok]
    show Except.ok (po rec.geometry (fn_center_selection boL boR).2
      (fn_center_selection boL boR).1) = _
    rw [show fn_center_selection boL boR = (.right, boR) from if_pos hge]
  · intro hgt
    unfold fn_center_offset_line
    rw [hok]
    show Except.ok (po rec.geometry (fn_center_selection boL boR).2
      (fn_center_selection boL boR).1) = _
    rw [show fn_center_selection boL boR = (.left, boL) from if_neg (not_le.mpr hgt)]

/-- Claim C1 (code-bug evidence): at a concrete single-row feature whose
best offset resolves to 0 and whose parallel-offset oracle returns a line
different from the input (as shapely's `parallel_offset(0, 'right')` does —
it reverses the line), `fn_center_mjr_axis_on_hull` returns the record with
its ORIGINAL geometry — the `iloc[0]` item assignment wrote to a row copy —
while the computed offset line differs from it. -/
theorem c1_geometry_unchanged :
    fn_center_mjr_axis_on_hull (fun (l : ℕ) _ _ => l + 1) (fun _ _ => .ok [])
        ⟨0, "POLYGON EMPTY", 100⟩ = .ok ⟨0, "POLYGON EMPTY", 100⟩ ∧
    fn_center_offset_line (fun (l : ℕ) _ _ => l + 1) (fun _ _ => .ok [])
        ⟨0, "POLYGON EMPTY", 100⟩ = .ok 1 ∧
    (1 : ℕ) ≠ 0 :=
  ⟨rfl, rfl, by decide⟩

/-- Claim C4, counterexample: when the split of the very first candidate
offset raises, the `except ... pass` leaves `split_polygons` unbound and the
subsequent `len(split_polygons.geoms)` raises `NameError`: the function
crashes instead of discarding the failure silently. -/
theorem c4_counterexample :
    fn_center_mjr_axis_on_hull (fun (l : Unit) _ _ => l) (fun _ _ => .err)
      ⟨(), "POLYGON EMPTY", 100⟩ = .error () := rfl

/-- Witness for `c4_amended`: a split oracle that never raises and always
returns a single piece (piece count 1, never two): the search completes with
both best offsets 0, the function returns the record, and the computed final
line is the original at offset 0 toward the right. -/
theorem c4_amended_witness :
    ((fun (_ : Side) (_ : ℚ) => SplitOutcome.ok ([] : List ℚ)) Side.left 0
      ≠ SplitOutcome.err) ∧
    fn_center_search (fun _ _ => SplitOutcome.ok []) 100 = .ok (0, 0) ∧
    fn_center_offset_line (fun (l : Unit) _ _ => l) (fun _ _ => .ok [])
      ⟨(), "POLYGON EMPTY", 100⟩ = .ok () ∧
    fn_center_mjr_axis_on_hull (fun (l : Unit) _ _ => l) (fun _ _ => .ok [])
      ⟨(), "POLYGON EMPTY", 100⟩ = .ok ⟨(), "POLYGON EMPTY", 100⟩ := by
  have h := c4_amended (fun (l : Unit) _ _ => l) (fun _ _ => .ok ([] : List ℚ))
    ⟨(), "POLYGON EMPTY", 100⟩
  have h1 : (fun (_ : Side) (_ : ℚ) => SplitOutcome.ok ([] : List ℚ)) Side.left 0
      ≠ SplitOutcome.err := by simp
  have h2 : ∀ (side : Side) (c a1 a2 : ℚ),
      (fun (_ : Side) (_ : ℚ) => SplitOutcome.ok ([] : List ℚ)) side c ≠ .ok [a1, a2] := by
    intro side c a1 a2
    simp
  exact ⟨h1, (h.2.2 h1 h2).1, (h.2.2 h1 h2).2, (h.2.1 h1).2⟩

/-- Witness for `c6_offset_selection` with a split oracle that always
returns a one-element collection: the search succeeds with offsets (0, 0),
the tie goes to the right side, and the chosen offset 0 lies in [0, 100]. -/
theorem c6_offset_selection_witness :
    (0 : ℚ) ≤ 100 ∧
    fn_center_search (fun _ _ => SplitOutcome.ok []) 100 = .ok (0, 0) ∧
    (((candidates ((100 : ℚ) / 100) 100).length = 100 ∧
      (∀ j, j < 100 → (candidates ((100 : ℚ) / 100) 100).getD j 0
          = (j : ℚ) * ((100 : ℚ) / 100))) ∧
    ((0 : ℚ) ≥ 0 →
      fn_center_offset_line (fun (l : Unit) _ _ => l) (fun _ _ => .ok [])
        ⟨(), "POLYGON EMPTY", 100⟩ = .ok ()) ∧
    ((0 : ℚ) > 0 →
      fn_center_offset_line (fun (l : Unit) _ _ => l) (fun _ _ => .ok [])
        ⟨(), "POLYGON EMPTY", 100⟩ = .ok ()) ∧
    ((0 : ℚ) ≤ 0 ∧ (0 : ℚ) ≤ 100) ∧ ((0 : ℚ) ≤ 0 ∧ (0 : ℚ) ≤ 100)) :=
  ⟨by norm_num, rfl,
    c6_offset_selection (fun (l : Unit) _ _ => l) (fun _ _ => .ok [])
      ⟨(), "POLYGON EMPTY", 100⟩ 0 0 (by norm_num) rfl⟩

/-- Claim C9: the ground-DEM provider dispatch tests the configured string
exactly: the remote web-coverage service iff the string equals `'None'`; the
local-COG provider iff the string MINUS ITS LAST THREE CHARACTERS equals
`"tif"` (so a plain path ending in `.tif`, such as `dem_merge.tif`, is routed
to the tile-index provider, while a string like `tifabc` goes to the COG
provider); every other string goes to the tile-index (rtree) provider. -/
theorem c9_dispatch (s : String) :
    (groundDemDispatch s = .service ↔ s = "None") ∧
    (groundDemDispatch s = .cog ↔ (s ≠ "None" ∧ s.dropRight 3 = "tif")) ∧
    (groundDemDispatch s = .rtree ↔ (s ≠ "None" ∧ s.dropRight 3 ≠ "tif")) ∧
    groundDemDispatch "dem_merge.tif" = .rtree ∧
    groundDemDispatch "tifabc" = .cog := by
  unfold groundDemDispatch
  refine ⟨?_, ?_, ?_, ?_, ?_⟩
  · by_cases h1 : s = "None" <;> by_cases h2 : s.dropRight 3 = "tif" <;> simp [h1, h2]
  · by_cases h1 : s = "None" <;> by_cases h2 : s.dropRight 3 = "tif" <;> simp [h1, h2]
  · by_cases h1 : s = "None" <;> by_cases h2 : s.dropRight 3 = "tif" <;> simp [h1, h2]
  · decide
  · decide

theorem lookup_eq_filter_head (dk : List (ℚ × ℚ)) (a : ℚ) :
    dk.lookup a = ((dk.filter (fun p => p.1 == a)).head?).map (·.2) := by
  induction dk with
  | nil => rfl
  | cons p ps ih =>
    by_cases h : p.1 == a
    · have h' : a == p.1 := by rw [BEq.comm]; exact h
      simp [List.lookup, List.filter_cons, h, h']
    · have h' : (a == p.1) = false := by
        rw [BEq.comm]; exact Bool.of_not_eq_true h
      simp [List.lookup, List.filter_cons, h, h', ih]

theorem filter_key_length_le_one (dk : List (ℚ × ℚ)) (a : ℚ)
    (hN : (dk.map Prod.fst).Nodup) :
    (dk.filter (fun p => p.1 == a)).length ≤ 1 := by
  induction dk with
  | nil => simp
  | cons p ps ih =>
    rw [List.map_cons, List.nodup_cons] at hN
    by_cases h : (p.1 == a) = true
    · have ha : p.1 = a := eq_of_beq h
      have hnil : ps.filter (fun q => q.1 == a) = [] := by
        rw [List.filter_eq_nil_iff]
        intro q hq hqa
        exact hN.1 (by
          rw [show p.1 = q.1 from ha.trans (eq_of_beq hqa).symm]
          exact List.mem_map_of_mem Prod.fst hq)
      simp [List.filter_cons, h, hnil]
    · simp only [List.filter_cons, h, if_false, Bool.false_eq_true]
      exact ih hN.2

theorem mergeLeft_cons (g : ℚ × Option ℚ) (ground : List (ℚ × Option ℚ))
    (dk : List (ℚ × ℚ)) :
    mergeLeft (g :: ground) dk =
      (match dk.filter (fun p => p.1 == g.1) with
       | [] => [⟨g.1, g.2, none, pandasMax g.2 none⟩]
       | ms => ms.map (fun p => ⟨g.1, g.2, some p.2, pandasMax g.2 (some p.2)⟩))
      ++ mergeLeft ground dk := rfl

theorem mergeLeft_of_sub (ground : List (ℚ × Option ℚ)) (dk : List (ℚ × ℚ))
    (hk : ∀ g ∈ ground, (dk.filter (fun p => p.1 == g.1)).length ≤ 1) :
    mergeLeft ground dk = ground.map (fun g =>
      let d := dk.lookup g.1
      ⟨g.1, g.2, d, pandasMax g.2 d⟩) := by
  induction ground with
  | nil => rfl
  | cons g gs ih =>
    have hg := hk g (List.mem_cons_self g gs)
    have hrest := ih (fun g' hg' => hk g' (List.mem_cons_of_mem g hg'))
    cases hf : dk.filter (fun p => p.1 == g.1) with
    | nil =>
      have hl : dk.lookup g.1 = none := by
        rw [lookup_eq_filter_head, hf]; rfl
      rw [mergeLeft_cons, hf, List.map_cons, hrest]
      simp [hl]
    | cons m ms =>
      have hms : ms = [] := by
        rw [hf] at hg
        simp only [List.length_cons] at hg
        exact List.length_eq_zero.mp (by omega)
      subst hms
      have hl : dk.lookup g.1 = some m.2 := by
        rw [lookup_eq_filter_head, hf]; rfl
      rw [mergeLeft_cons, hf, List.map_cons, hrest]
      simp [hl]

theorem map_fst_zip_sublist (l : List ℚ) (w : List ℚ) :
    ((l.zip w).map Prod.fst).Sublist l := by
  induction l generalizing w with
  | nil => simp
  | cons a l ih =>
    cases w with
    | nil => simp
    | cons b w => simpa using (ih w).cons₂ a

theorem deckSeries_fst_nodup (rows : List ProfileRow)
    (hN : (rows.map (·.h_distance)).Nodup) : (deckSeries rows).1.Nodup := by
  unfold deckSeries
  exact hN.sublist (List.Sublist.map _ (List.filter_sublist rows))

theorem smooth_eq_lookup (sav : List ℚ → ℕ → ℕ → Except Unit (List ℚ))
    (rows : List ProfileRow) (w : List ℚ)
    (hN : (rows.map (·.h_distance)).Nodup)
    (hw : (match sav (deckSeries rows).2 (savgolWindow (deckSeries rows).1.length) 2 with
           | .ok w' => w'
           | .error _ => (deckSeries rows).2) = w) :
    fn_get_smooth_deck_and_ground_profile sav rows = rows.map (fun r =>
      let d := ((deckSeries rows).1.zip w).lookup r.h_distance
      ⟨r.h_distance, r.elev_grnd, d, pandasMax r.elev_grnd d⟩) := by
  have hkeys : (((deckSeries rows).1.zip w).map Prod.fst).Nodup :=
    (deckSeries_fst_nodup rows hN).sublist (map_fst_zip_sublist _ w)
  have hk : ∀ g ∈ rows.map (fun r => (r.h_distance, r.elev_grnd)),
      (((deckSeries rows).1.zip w).filter (fun p => p.1 == g.1)).length ≤ 1 :=
    fun g _ => filter_key_length_le_one _ _ hkeys
  have hmain : fn_get_smooth_deck_and_ground_profile sav rows
      = mergeLeft (rows.map (fun r => (r.h_distance, r.elev_grnd)))
          ((deckSeries rows).1.zip w) := by
    unfold fn_get_smooth_deck_and_ground_profile deckSeries savgolWindow at *
    simp only at hw ⊢
    rw [hw]
  rw [hmain, mergeLeft_of_sub _ _ hk, List.map_map]
  rfl

theorem lookup_zip_map {α : Type} (f : α → ℚ) (g : α → ℚ) (l : List α)
    (hN : (l.map f).Nodup) (x : α) (hx : x ∈ l) :
    ((l.map f).zip (l.map g)).lookup (f x) = some (g x) := by
  induction l with
  | nil => cases hx
  | cons a l ih =>
    rw [List.map_cons, List.map_cons, List.nodup_cons] at *
    rcases List.mem_cons.mp hx with rfl | hx'
    · simp [List.lookup]
    · have hne : (f x == f a) = false := by
        rw [BEq.comm]
        apply beq_eq_false_iff_ne.mpr
        intro he
        exact hN.1 (he ▸ List.mem_map_of_mem f hx')
      simp only [List.zip_cons_cons, List.lookup, hne]
      exact ih hN.2 hx'

theorem savgolWindow_odd (n : ℕ) : savgolWindow n % 2 = 1 := by
  unfold savgolWindow
  rcases Nat.even_or_odd (n / 4) with h | h
  · simp [Nat.even_iff.mp h, Nat.add_mod, Nat.even_iff.mp h]
  · simp [Nat.odd_iff.mp h]

/-- Claim C5: the smoother drops every row with a missing value, hands
exactly the dropped-row deck series to the polynomial filter with window
`len // 4` forced odd (the window is always odd) and degree 2, passes the
ground series through unsmoothed for ALL rows, sets every output row's
combined elevation to the station-wise `max` of ground and smoothed deck
(missing values skipped), and the serialized station / ground / combined
columns are all rounded to two decimal places (half-to-even). -/
theorem c5_smoothed_profile (sav : List ℚ → ℕ → ℕ → Except Unit (List ℚ))
    (rows : List ProfileRow) (w : List ℚ)
    (hN : (rows.map (·.h_distance)).Nodup)
    (hw : sav (deckSeries rows).2 (savgolWindow (deckSeries rows).1.length) 2 = .ok w) :
    fn_get_smooth_deck_and_ground_profile sav rows = rows.map (fun r =>
      let d := ((deckSeries rows).1.zip w).lookup r.h_distance
      ⟨r.h_distance, r.elev_grnd, d, pandasMax r.elev_grnd d⟩) ∧
    fn_serialize_xs (fn_get_smooth_deck_and_ground_profile sav rows) =
      (rows.map (fun r => round2 r.h_distance),
       rows.map (fun r => r.elev_grnd.map round2),
       rows.map (fun r => (pandasMax r.elev_grnd
         (((deckSeries rows).1.zip w).lookup r.h_distance)).map round2)) ∧
    savgolWindow (deckSeries rows).1.length % 2 = 1 := by
  have hmain := smooth_eq_lookup sav rows w hN (by rw [hw])
  refine ⟨hmain, ?_, savgolWindow_odd _⟩
  rw [hmain]
  unfold fn_serialize_xs
  simp only [List.map_map]
  rfl

/-- Claim C7: when the smoothing filter raises (window degenerate or
otherwise), `fn_get_smooth_deck_and_ground_profile` does not raise — the
bare `except` replaces the filtered series by the raw deck series, so every
complete row's deck entry in the output is its own unsmoothed deck value. -/
theorem c7_smoother_fallback (sav : List ℚ → ℕ → ℕ → Except Unit (List ℚ))
    (rows : List ProfileRow)
    (hN : (rows.map (·.h_distance)).Nodup)
    (herr : sav (deckSeries rows).2 (savgolWindow (deckSeries rows).1.length) 2 = .error ()) :
    fn_get_smooth_deck_and_ground_profile sav rows = rows.map (fun r =>
      let d := ((deckSeries rows).1.zip (deckSeries rows).2).lookup r.h_distance
      ⟨r.h_distance, r.elev_grnd, d, pandasMax r.elev_grnd d⟩) ∧
    (∀ r ∈ rows, r.elev_grnd.isSome → r.elev_deck.isSome →
      ((deckSeries rows).1.zip (deckSeries rows).2).lookup r.h_distance = r.elev_deck) := by
  constructor
  · exact smooth_eq_lookup sav rows (deckSeries rows).2 hN (by rw [herr])
  · intro r hr hg hd
    have hmem : r ∈ rows.filter (fun r => r.elev_grnd.isSome && r.elev_deck.isSome) := by
      rw [List.mem_filter]
      exact ⟨hr, by simp [hg, hd]⟩
    have hsub : ((rows.filter (fun r => r.elev_grnd.isSome && r.elev_deck.isSome)).map
        (·.h_distance)).Nodup :=
      hN.sublist (List.Sublist.map _ (List.filter_sublist rows))
    have := lookup_zip_map (fun r : ProfileRow => r.h_distance)
      (fun r => r.elev_deck.getD 0)
      (rows.filter (fun r => r.elev_grnd.isSome && r.elev_deck.isSome)) hsub r hmem
    unfold deckSeries
    rw [this]
    obtain ⟨v, hv⟩ := Option.isSome_iff_exists.mp hd
    simp [hv]

/-- Witness for `c5_smoothed_profile` with the identity smoothing oracle on
a three-row profile whose middle row has a missing deck value. -/
theorem c5_smoothed_profile_witness :
    (([⟨0, some 1, some 10⟩, ⟨1, some 2, none⟩, ⟨2, some 1, some 12⟩]
        : List ProfileRow).map (·.h_distance)).Nodup ∧
    (fun (y : List ℚ) (_ : ℕ) (_ : ℕ) => (Except.ok y : Except Unit (List ℚ)))
      (deckSeries [⟨0, some 1, some 10⟩, ⟨1, some 2, none⟩, ⟨2, some 1, some 12⟩]).2
      (savgolWindow
        (deckSeries [⟨0, some 1, some 10⟩, ⟨1, some 2, none⟩, ⟨2, some 1, some 12⟩]).1.length)
      2 = .ok [10, 12] ∧
    (fn_get_smooth_deck_and_ground_profile
        (fun y _ _ => .ok y)
        [⟨0, some 1, some 10⟩, ⟨1, some 2, none⟩, ⟨2, some 1, some 12⟩] =
      ([⟨0, some 1, some 10⟩, ⟨1, some 2, none⟩, ⟨2, some 1, some 12⟩]
          : List ProfileRow).map (fun r =>
        let d := ((deckSeries [⟨0, some 1, some 10⟩, ⟨1, some 2, none⟩,
            ⟨2, some 1, some 12⟩]).1.zip [10, 12]).lookup r.h_distance
        ⟨r.h_distance, r.elev_grnd, d, pandasMax r.elev_grnd d⟩)) := by
  refine ⟨by decide, by rfl, ?_⟩
  exact (c5_smoothed_profile (fun y _ _ => .ok y)
    [⟨0, some 1, some 10⟩, ⟨1, some 2, none⟩, ⟨2, some 1, some 12⟩]
    [10, 12] (by decide) (by rfl)).1

/-- Witness for `c7_smoother_fallback` with an always-raising smoothing
oracle on a three-row profile whose middle row has a missing deck value. -/
theorem c7_smoother_fallback_witness :
    (([⟨0, some 1, some 10⟩, ⟨1, some 2, none⟩, ⟨2, some 1, some 12⟩]
        : List ProfileRow).map (·.h_distance)).Nodup ∧
    (fun (_ : List ℚ) (_ : ℕ) (_ : ℕ) => (Except.error () : Except Unit (List ℚ)))
      (deckSeries [⟨0, some 1, some 10⟩, ⟨1, some 2, none⟩, ⟨2, some 1, some 12⟩]).2
      (savgolWindow
        (deckSeries [⟨0, some 1, some 10⟩, ⟨1, some 2, none⟩, ⟨2, some 1, some 12⟩]).1.length)
      2 = .error () ∧
    (fn_get_smooth_deck_and_ground_profile
        (fun _ _ _ => .error ())
        [⟨0, some 1, some 10⟩, ⟨1, some 2, none⟩, ⟨2, some 1, some 12⟩] =
      ([⟨0, some 1, some 10⟩, ⟨1, some 2, none⟩, ⟨2, some 1, some 12⟩]
          : List ProfileRow).map (fun r =>
        let d := ((deckSeries [⟨0, some 1, some 10⟩, ⟨1, some 2, none⟩,
            ⟨2, some 1, some 12⟩]).1.zip
          (deckSeries [⟨0, some 1, some 10⟩, ⟨1, some 2, none⟩,
            ⟨2, some 1, some 12⟩]).2).lookup r.h_distance
        ⟨r.h_distance, r.elev_grnd, d, pandasMax r.elev_grnd d⟩)) := by
  refine ⟨by decide, by rfl, ?_⟩
  exact (c7_smoother_fallback (fun _ _ _ => .error ())
    [⟨0, some 1, some 10⟩, ⟨1, some 2, none⟩, ⟨2, some 1, some 12⟩]
    (by decide) (by rfl)).1

theorem fn_center_ok_of_first {Line : Type} (po : Line → ℚ → Side → Line)
    (sf : Side → ℚ → SplitOutcome) (rec : FeatureRecord Line)
    (h : sf .left 0 ≠ .err) :
    fn_center_mjr_axis_on_hull po sf rec = .ok rec := by
  unfold fn_center_mjr_axis_on_hull
  rw [fn_center_search_ok sf rec.avg_width h]

/-- Claim C8: when the matched ground-DEM provider yields no raster (e.g.
the tile-index merge produced nothing) the per-row orchestrator returns the
`None` sentinel instead of raising (given the hull-centering itself does not
raise), and the caller's filter drops `None` results from the merged set —
removing a `None` does not disturb the other results, and every survivor
originates from a non-`None` worker result. -/
theorem c8_no_raster_skips
    (po : List Pt → ℚ → Side → List Pt) (sf : Side → ℚ → SplitOutcome)
    (sqrtQ : ℚ → ℚ) (sav : List ℚ → ℕ → ℕ → Except Unit (List ℚ))
    (deckDemExists : Bool) (deckRaster : Pt → Option ℚ)
    (provider : GroundDemSource → Option (Pt → Option ℚ))
    (row : MjrAxisRow)
    (hc : sf .left 0 ≠ .err)
    (hnone : provider (groundDemDispatch row.cog_ground_dem) = none) :
    fn_populate_sta_ground_deck_elev po sf sqrtQ sav deckDemExists deckRaster
      provider row = .ok none ∧
    (∀ (xs ys : List (Option OutRecord)),
      fn_attribute_filter_results (xs ++ none :: ys)
        = fn_attribute_filter_results (xs ++ ys)) ∧
    (∀ (l : List (Option OutRecord)), ∀ r ∈ fn_attribute_filter_results l, some r ∈ l) := by
  refine ⟨?_, ?_, ?_⟩
  · unfold fn_populate_sta_ground_deck_elev
    rw [fn_center_ok_of_first po sf row.feature hc]
    cases deckDemExists with
    | false => rfl
    | true => simp only [hnone, if_true]
  · intro xs ys
    unfold fn_attribute_filter_results
    simp
  · intro l r hr
    unfold fn_attribute_filter_results at hr
    obtain ⟨o, ho, he⟩ := List.mem_filterMap.mp hr
    simp only [id_eq] at he
    rw [← he]
    exact ho

/-- Witness for `c8_no_raster_skips`: a provider with no raster for any
source on a concrete two-vertex line routed through `dem.tif` (rtree). -/
theorem c8_no_raster_skips_witness :
    ((fun (_ : Side) (_ : ℚ) => SplitOutcome.ok ([] : List ℚ)) Side.left 0
      ≠ SplitOutcome.err) ∧
    ((fun (_ : GroundDemSource) => (none : Option (Pt → Option ℚ)))
      (groundDemDispatch "dem.tif") = none) ∧
    fn_populate_sta_ground_deck_elev (fun l _ _ => l) (fun _ _ => .ok []) ratSqrt
      (fun _ _ _ => .error ()) true (fun _ => none) (fun _ => none)
      ⟨⟨[(0, 0), (1, 0)], "POLYGON EMPTY", 100⟩, "dem.tif"⟩ = .ok none := by
  have h1 : (fun (_ : Side) (_ : ℚ) => SplitOutcome.ok ([] : List ℚ)) Side.left 0
      ≠ SplitOutcome.err := by simp
  refine ⟨h1, rfl, ?_⟩
  exact (c8_no_raster_skips (fun l _ _ => l) (fun _ _ => .ok []) ratSqrt (fun _ _ _ => .error ())
    true (fun _ => none) (fun _ => none)
    ⟨⟨[(0, 0), (1, 0)], "POLYGON EMPTY", 100⟩, "dem.tif"⟩ h1 rfl).1

theorem sqdist_self (a : Pt) : sqdist a a = 0 := by
  unfold sqdist; ring

theorem sqrtQ_zero (sqrtQ : ℚ → ℚ) (hS : IsExactSqrt sqrtQ) : sqrtQ 0 = 0 := by
  have := hS 0 le_rfl
  simpa using this

theorem interpPt_zero (a b : Pt) (n : ℕ) : interpPt a b n 0 = a := by
  unfold interpPt
  simp

theorem interpPt_self (a b : Pt) (n : ℕ) (hn : (n : ℚ) ≠ 0) : interpPt a b n n = b := by
  unfold interpPt
  field_simp

theorem sqdist_interp (a b : Pt) (n : ℕ) (j k : ℕ) :
    sqdist (interpPt a b n j) (interpPt a b n k) =
      (((j : ℚ) - (k : ℚ)) / (n : ℚ)) ^ 2 * sqdist a b := by
  unfold sqdist interpPt
  ring

theorem sqdist_comm (a b : Pt) : sqdist a b = sqdist b a := by
  unfold sqdist; ring

theorem station_interp (sqrtQ : ℚ → ℚ) (hS : IsExactSqrt sqrtQ) (a b : Pt) (L : ℚ)
    (hL : 0 ≤ L) (hLs : L * L = sqdist a b) (n j : ℕ) :
    fn_distance sqrtQ a (interpPt a b n j) = (j : ℚ) / (n : ℚ) * L := by
  unfold fn_distance
  have h1 : sqdist a (interpPt a b n j) = ((j : ℚ) / (n : ℚ) * L) ^ 2 := by
    have := sqdist_interp a b n 0 j
    rw [interpPt_zero] at this
    rw [this, ← hLs]
    ring
  rw [h1]
  exact hS _ (by positivity)

theorem fn_distance_eq (sqrtQ : ℚ → ℚ) (hS : IsExactSqrt sqrtQ) (a b : Pt) (L : ℚ)
    (hL : 0 ≤ L) (hLs : L * L = sqdist a b) :
    fn_distance sqrtQ a b = L := by
  unfold fn_distance
  rw [← hLs, show L * L = L ^ 2 from by ring]
  exact hS L hL

theorem nPoints_cast_le (L : ℚ) (hL : 0 ≤ L) : ((nPoints L : ℕ) : ℚ) ≤ L := by
  unfold nPoints
  have h0 : (0 : ℤ) ≤ ⌊L⌋ := Int.floor_nonneg.mpr hL
  rw [show ((⌊L⌋.toNat : ℕ) : ℚ) = ((⌊L⌋ : ℤ) : ℚ) from by
    rw [← Int.toNat_of_nonneg h0]; push_cast; rw [Int.toNat_of_nonneg h0]]
  exact Int.floor_le L

theorem lt_nPoints_succ (L : ℚ) (hL : 0 ≤ L) : L < ((nPoints L : ℕ) : ℚ) + 1 := by
  unfold nPoints
  have h0 : (0 : ℤ) ≤ ⌊L⌋ := Int.floor_nonneg.mpr hL
  rw [show ((⌊L⌋.toNat : ℕ) : ℚ) = ((⌊L⌋ : ℤ) : ℚ) from by
    rw [← Int.toNat_of_nonneg h0]; push_cast; rw [Int.toNat_of_nonneg h0]]
  exact Int.lt_floor_add_one L

theorem segOut_eq_range (sqrtQ : ℚ → ℚ) (hS : IsExactSqrt sqrtQ) (a b : Pt) (L : ℚ)
    (hL : 0 < L) (hLs : L * L = sqdist a b) (base : ℚ) :
    segOut sqrtQ a b base = (List.range (max (nPoints L) 1)).map
      (fun j => (interpPt a b (nPoints L) j,
        (j : ℚ) / ((nPoints L : ℕ) : ℚ) * L + base)) := by
  have hfd : fn_distance sqrtQ a b = L :=
    fn_distance_eq sqrtQ hS a b L (le_of_lt hL) hLs
  unfold segOut segPts
  rw [hfd]
  have hmax : max (nPoints L) 1 = (nPoints L - 1) + 1 := by omega
  rw [hmax, List.range_succ_eq_map, List.map_cons, List.map_cons, List.map_map, List.map_map]
  congr 1
  · rw [interpPt_zero]
    unfold fn_distance
    rw [sqdist_self, sqrtQ_zero sqrtQ hS]
    norm_num
  · apply List.map_congr_left
    intro t ht
    simp only [Function.comp_apply]
    rw [station_interp sqrtQ hS a b L (le_of_lt hL) hLs]

theorem segOut_props (sqrtQ : ℚ → ℚ) (hS : IsExactSqrt sqrtQ) (a b : Pt) (L base : ℚ)
    (hL : 0 < L) (hLs : L * L = sqdist a b) :
    (segOut sqrtQ a b base).length = max (nPoints L) 1 ∧
    (segOut sqrtQ a b base).head? = some (a, base) ∧
    List.Chain' (fun p q : Pt × ℚ => p.2 < q.2 ∧ sqdist p.1 q.1 < 4) (segOut sqrtQ a b base) ∧
    (∀ x, (segOut sqrtQ a b base).getLast? = some x →
      x.2 < base + L ∧ sqdist x.1 b < 4) := by
  rw [segOut_eq_range sqrtQ hS a b L hL hLs base]
  rcases Nat.eq_zero_or_pos (nPoints L) with hn | hn
  · have hL1 : L < 1 := by
      have h1 := lt_nPoints_succ L (le_of_lt hL)
      rw [hn] at h1
      simpa using h1
    rw [hn, show max 0 1 = 1 from rfl, show List.range 1 = [0] from rfl]
    simp only [List.map_cons, List.map_nil, interpPt_zero, Nat.cast_zero, zero_div, zero_mul,
      zero_add]
    refine ⟨rfl, rfl, List.chain'_singleton _, ?_⟩
    intro x hx
    simp only [List.getLast?_singleton, Option.some_inj] at hx
    subst hx
    refine ⟨by linarith, ?_⟩
    show sqdist a b < 4
    rw [← hLs]
    nlinarith
  · obtain ⟨m, hm⟩ : ∃ m, nPoints L = m + 1 := ⟨nPoints L - 1, by omega⟩
    rw [hm, show max (m + 1) 1 = m + 1 from by omega]
    have hnq : (0 : ℚ) < ((m + 1 : ℕ) : ℚ) := by positivity
    have hnq' : ((m + 1 : ℕ) : ℚ) ≠ 0 := ne_of_gt hnq
    have hL2n : L < 2 * ((m + 1 : ℕ) : ℚ) := by
      have h1 := lt_nPoints_succ L (le_of_lt hL)
      rw [hm] at h1
      have h2 : (1 : ℚ) ≤ ((m + 1 : ℕ) : ℚ) := by
        exact_mod_cast Nat.one_le_iff_ne_zero.mpr (Nat.succ_ne_zero m)
      linarith
    have hgap : ∀ (j k : ℕ), ((j : ℚ) - (k : ℚ)) ^ 2 = 1 →
        sqdist (interpPt a b (m + 1) j) (interpPt a b (m + 1) k) < 4 := by
      intro j k hjk
      rw [sqdist_interp, ← hLs, div_pow, hjk]
      rw [div_mul_eq_mul_div, one_mul, div_lt_iff₀ (by positivity)]
      nlinarith
    refine ⟨by rw [List.length_map, List.length_range], ?_, ?_, ?_⟩
    · rw [List.head?_map, show (List.range (m + 1)).head? = some 0 from by
        rw [List.range_succ_eq_map]; rfl]
      simp only [Option.map_some']
      rw [interpPt_zero]
      norm_num
    · rw [List.chain'_map, List.chain'_range_succ]
      intro j hj
      refine ⟨?_, ?_⟩
      · have hkey : (((j + 1 : ℕ) : ℚ) / ((m + 1 : ℕ) : ℚ) * L + base)
            - (((j : ℕ) : ℚ) / ((m + 1 : ℕ) : ℚ) * L + base)
            = L / ((m + 1 : ℕ) : ℚ) := by
          field_simp
          ring
        have hpos : (0 : ℚ) < L / ((m + 1 : ℕ) : ℚ) := div_pos hL hnq
        linarith
      · apply hgap
        push_cast
        ring
    · intro x hx
      rw [List.range_succ, List.map_append, List.map_cons, List.map_nil,
        List.getLast?_concat] at hx
      injection hx with hx
      subst hx
      refine ⟨?_, ?_⟩
      · have hmlt : ((m : ℕ) : ℚ) < ((m + 1 : ℕ) : ℚ) := by push_cast; linarith
        have h2 : ((m : ℕ) : ℚ) / ((m + 1 : ℕ) : ℚ) * L < 1 * L := by
          apply mul_lt_mul_of_pos_right _ hL
          rw [div_lt_one hnq]
          exact hmlt
        simp only [one_mul] at h2
        show ((m : ℕ) : ℚ) / ((m + 1 : ℕ) : ℚ) * L + base < base + L
        linarith
      · show sqdist (interpPt a b (m + 1) m) b < 4
        nth_rewrite 2 [show b = interpPt a b (m + 1) (m + 1) from
          (interpPt_self a b (m + 1) hnq').symm]
        apply hgap
        push_cast
        ring

theorem runEdges_eq_restOut (sqrtQ : ℚ → ℚ) :
    ∀ (es : List (Pt × Pt)) (st : SamplerState),
      0 < st.total →
      (∀ e ∈ es, 0 ≤ fn_distance sqrtQ e.1 e.2) →
      runEdges sqrtQ es st =
        ⟨st.gdf ++ restOut sqrtQ es st.total,
         st.total + (es.map (fun e => fn_distance sqrtQ e.1 e.2)).sum⟩ := by
  intro es
  induction es with
  | nil =>
    intro st hst hpos
    cases st
    simp [runEdges, restOut]
  | cons e rest ih =>
    intro st hst hpos
    cases rest with
    | nil =>
      have hne : ¬ st.total = 0 := ne_of_gt hst
      show edgeStep sqrtQ true e.1 e.2 st = _
      unfold edgeStep restOut segOut
      rw [if_neg hne, if_pos rfl]
      simp only [List.map_append, List.map_cons, List.map_nil, List.sum_cons, List.sum_nil,
        SamplerState.mk.injEq, List.append_assoc, add_zero, and_self]
    | cons e2 rest2 =>
      have hne : ¬ st.total = 0 := ne_of_gt hst
      show runEdges sqrtQ (e2 :: rest2) (edgeStep sqrtQ false e.1 e.2 st) = _
      have hstep : edgeStep sqrtQ false e.1 e.2 st =
          ⟨st.gdf ++ segOut sqrtQ e.1 e.2 st.total,
           st.total + fn_distance sqrtQ e.1 e.2⟩ := by
        unfold edgeStep segOut
        rw [if_neg hne]
        rfl
      rw [hstep]
      have hpos2 : 0 < st.total + fn_distance sqrtQ e.1 e.2 := by
        have := hpos e (List.mem_cons_self e _)
        linarith
      rw [ih ⟨st.gdf ++ segOut sqrtQ e.1 e.2 st.total,
            st.total + fn_distance sqrtQ e.1 e.2⟩ hpos2
          (fun e' he' => hpos e' (List.mem_cons_of_mem e he'))]
      rw [show restOut sqrtQ (e :: e2 :: rest2) st.total
          = segOut sqrtQ e.1 e.2 st.total ++
            restOut sqrtQ (e2 :: rest2) (st.total + fn_distance sqrtQ e.1 e.2) from rfl]
      simp only [SamplerState.mk.injEq]
      refine ⟨by rw [List.append_assoc], by simp only [List.map_cons, List.sum_cons]; ring⟩

theorem fn_sample_closed (sqrtQ : ℚ → ℚ) (v0 v1 u : Pt) (us : List Pt)
    (hpos : ∀ e ∈ edgesOf (v0 :: v1 :: u :: us), 0 < fn_distance sqrtQ e.1 e.2) :
    fn_sample_major_axis sqrtQ (v0 :: v1 :: u :: us) =
      segOut sqrtQ v0 v1 0 ++
        restOut sqrtQ (edgesOf (v1 :: u :: us)) (fn_distance sqrtQ v0 v1) := by
  unfold fn_sample_major_axis
  have hstep : edgeStep sqrtQ false v0 v1 ⟨[], 0⟩ =
      ⟨segOut sqrtQ v0 v1 0, 0 + fn_distance sqrtQ v0 v1⟩ := by
    unfold edgeStep segOut
    rw [if_pos rfl]
    simp only [SamplerState.mk.injEq]
    refine ⟨?_, trivial⟩
    apply List.map_congr_left
    intro p hp
    simp
  have hrw : runEdges sqrtQ (edgesOf (v0 :: v1 :: u :: us)) ⟨[], 0⟩
      = runEdges sqrtQ (edgesOf (v1 :: u :: us)) (edgeStep sqrtQ false v0 v1 ⟨[], 0⟩) := rfl
  rw [hrw, hstep]
  have hpos0 : (0 : ℚ) < 0 + fn_distance sqrtQ v0 v1 := by
    have := hpos (v0, v1) (List.mem_cons_self _ _)
    simpa using this
  rw [runEdges_eq_restOut sqrtQ (edgesOf (v1 :: u :: us))
      ⟨segOut sqrtQ v0 v1 0, 0 + fn_distance sqrtQ v0 v1⟩ hpos0
      (fun e' he' => le_of_lt (hpos e' (List.mem_cons_of_mem _ he')))]
  simp only [zero_add]

theorem head?_append_some {α : Type} {l₁ l₂ : List α} {a : α} (h : l₁.head? = some a) :
    (l₁ ++ l₂).head? = some a := by
  rw [List.head?_append, h]
  rfl

theorem restOut_props (sqrtQ : ℚ → ℚ) (hS : IsExactSqrt sqrtQ) :
    ∀ (us : List Pt) (v : Pt) (base : ℚ), us ≠ [] →
      (∀ e ∈ edgesOf (v :: us), ∃ L, 0 < L ∧ L * L = sqdist e.1 e.2) →
      (restOut sqrtQ (edgesOf (v :: us)) base).length
          = ((edgesOf (v :: us)).map
              (fun e => max (nPoints (fn_distance sqrtQ e.1 e.2)) 1)).sum + 1 ∧
      (restOut sqrtQ (edgesOf (v :: us)) base).head? = some (v, base) ∧
      (∀ w ∈ v :: us, w ∈ (restOut sqrtQ (edgesOf (v :: us)) base).map Prod.fst) ∧
      List.Chain' (fun p q : Pt × ℚ => p.2 < q.2 ∧ sqdist p.1 q.1 < 4)
        (restOut sqrtQ (edgesOf (v :: us)) base) ∧
      (∃ w, us.getLast? = some w ∧
        (restOut sqrtQ (edgesOf (v :: us)) base).getLast?
          = some (w, base + ((edgesOf (v :: us)).map
              (fun e => fn_distance sqrtQ e.1 e.2)).sum)) := by
  intro us
  induction us with
  | nil => intro v base h; exact absurd rfl h
  | cons u us' ih =>
    intro v base hne hpy
    obtain ⟨L, hL, hLs⟩ := hpy (v, u) (List.mem_cons_self _ _)
    have hfd : fn_distance sqrtQ v u = L := fn_distance_eq sqrtQ hS v u L (le_of_lt hL) hLs
    obtain ⟨slen, shead, schain, slast⟩ := segOut_props sqrtQ hS v u L base hL hLs
    cases us' with
    | nil =>
      have hre : restOut sqrtQ (edgesOf [v, u]) base
          = segOut sqrtQ v u base ++ [(u, fn_distance sqrtQ v u + base)] := rfl
      refine ⟨?_, ?_, ?_, ?_, ?_⟩
      · rw [hre, List.length_append, slen]
        show _ = ((max (nPoints (fn_distance sqrtQ v u)) 1) + 0) + 1
        rw [hfd]
        simp
      · rw [hre]
        exact head?_append_some shead
      · intro w hw
        rw [hre, List.map_append]
        rcases List.mem_cons.mp hw with h' | hw'
        · rw [h']
          apply List.mem_append_left
          have hv : (v, base) ∈ segOut sqrtQ v u base :=
            List.mem_of_mem_head? (by rw [shead]; rfl)
          exact List.mem_map_of_mem Prod.fst hv
        · have hwu : w = u := by simpa using hw'
          subst hwu
          apply List.mem_append_right
          simp
      · rw [hre, List.chain'_append]
        refine ⟨schain, List.chain'_singleton _, ?_⟩
        intro x hx y hy
        simp only [List.head?_cons, Option.mem_def, Option.some_inj] at hy
        subst hy
        obtain ⟨h1, h2⟩ := slast x (Option.mem_def.mp hx)
        refine ⟨?_, h2⟩
        show x.2 < fn_distance sqrtQ v u + base
        rw [hfd]
        linarith
      · refine ⟨u, rfl, ?_⟩
        rw [hre, List.getLast?_append_of_ne_nil _ (by simp)]
        show some (u, fn_distance sqrtQ v u + base) = _
        rw [show edgesOf [v, u] = [(v, u)] from rfl]
        simp only [List.map_cons, List.map_nil, List.sum_cons, List.sum_nil]
        rw [Option.some_inj]
        refine Prod.ext rfl ?_
        show fn_distance sqrtQ v u + base = base + (fn_distance sqrtQ v u + 0)
        ring
    | cons u2 us2 =>
      have hre : restOut sqrtQ (edgesOf (v :: u :: u2 :: us2)) base
          = segOut sqrtQ v u base ++
            restOut sqrtQ (edgesOf (u :: u2 :: us2))
              (base + fn_distance sqrtQ v u) := rfl
      have hpy' : ∀ e ∈ edgesOf (u :: u2 :: us2), ∃ L, 0 < L ∧ L * L = sqdist e.1 e.2 :=
        fun e he => hpy e (List.mem_cons_of_mem _ he)
      obtain ⟨rlen, rhead, rmem, rchain, w, hw, rlast⟩ :=
        ih u (base + fn_distance sqrtQ v u) (by simp) hpy'
      have hrne : restOut sqrtQ (edgesOf (u :: u2 :: us2))
          (base + fn_distance sqrtQ v u) ≠ [] := by
        intro h
        rw [h] at rhead
        exact Option.noConfusion rhead
      refine ⟨?_, ?_, ?_, ?_, ?_⟩
      · rw [hre, List.length_append, slen, rlen]
        rw [show edgesOf (v :: u :: u2 :: us2) = (v, u) :: edgesOf (u :: u2 :: us2) from rfl]
        simp only [List.map_cons, List.sum_cons, hfd]
        omega
      · rw [hre]
        exact head?_append_some shead
      · intro x hx
        rw [hre, List.map_append]
        rcases List.mem_cons.mp hx with h' | hx'
        · rw [h']
          apply List.mem_append_left
          have hv : (v, base) ∈ segOut sqrtQ v u base :=
            List.mem_of_mem_head? (by rw [shead]; rfl)
          exact List.mem_map_of_mem Prod.fst hv
        · exact List.mem_append_right _ (rmem x hx')
      · rw [hre, List.chain'_append]
        refine ⟨schain, rchain, ?_⟩
        intro x hx y hy
        rw [rhead] at hy
        simp only [Option.mem_def, Option.some_inj] at hy
        subst hy
        obtain ⟨h1, h2⟩ := slast x (Option.mem_def.mp hx)
        refine ⟨?_, h2⟩
        show x.2 < base + fn_distance sqrtQ v u
        rw [hfd]
        linarith
      · refine ⟨w, by simpa using hw, ?_⟩
        rw [hre, List.getLast?_append_of_ne_nil _ hrne, rlast]
        rw [show edgesOf (v :: u :: u2 :: us2) = (v, u) :: edgesOf (u :: u2 :: us2) from rfl]
        simp only [List.map_cons, List.sum_cons, hfd]
        rw [Option.some_inj]
        refine Prod.ext rfl ?_
        show base + L + _ = base + (L + _)
        ring

/-- C2 (amended): for every polyline with at least two segments, each of
positive rational Euclidean length, the dense sampler (interval 1 after the
source's unit reduction) produces Σ_k max(⌊L_k⌋, 1) + 1 points containing
every original vertex, with consecutive points strictly less than 2 intervals
apart (squared distance < 4), and station values that start at exactly 0, are
strictly increasing (hence unique), and end at exactly Σ_k L_k. Single-segment
polylines are excluded: there the source's first-iteration branch drops the
final vertex (see the counterexample). -/
theorem c2_amended (sqrtQ : ℚ → ℚ) (hS : IsExactSqrt sqrtQ)
    (v0 v1 u : Pt) (us : List Pt)
    (hpy : ∀ e ∈ edgesOf (v0 :: v1 :: u :: us), ∃ L, 0 < L ∧ L * L = sqdist e.1 e.2) :
    (fn_sample_major_axis sqrtQ (v0 :: v1 :: u :: us)).length
        = ((edgesOf (v0 :: v1 :: u :: us)).map
            (fun e => max (nPoints (fn_distance sqrtQ e.1 e.2)) 1)).sum + 1 ∧
    (∀ w ∈ v0 :: v1 :: u :: us,
      w ∈ (fn_sample_major_axis sqrtQ (v0 :: v1 :: u :: us)).map Prod.fst) ∧
    ((fn_sample_major_axis sqrtQ (v0 :: v1 :: u :: us)).map Prod.snd).head? = some 0 ∧
    List.Chain' (· < ·) ((fn_sample_major_axis sqrtQ (v0 :: v1 :: u :: us)).map Prod.snd) ∧
    ((fn_sample_major_axis sqrtQ (v0 :: v1 :: u :: us)).map Prod.snd).Nodup ∧
    ((fn_sample_major_axis sqrtQ (v0 :: v1 :: u :: us)).map Prod.snd).getLast?
        = some (((edgesOf (v0 :: v1 :: u :: us)).map
            (fun e => fn_distance sqrtQ e.1 e.2)).sum) ∧
    List.Chain' (fun p q : Pt × ℚ => sqdist p.1 q.1 < 4)
      (fn_sample_major_axis sqrtQ (v0 :: v1 :: u :: us)) := by
  obtain ⟨L0, hL0, hL0s⟩ := hpy (v0, v1) (List.mem_cons_self _ _)
  have hfd0 : fn_distance sqrtQ v0 v1 = L0 :=
    fn_distance_eq sqrtQ hS v0 v1 L0 (le_of_lt hL0) hL0s
  have hpos : ∀ e ∈ edgesOf (v0 :: v1 :: u :: us), 0 < fn_distance sqrtQ e.1 e.2 := by
    intro e he
    obtain ⟨L, hL, hLs⟩ := hpy e he
    rw [fn_distance_eq sqrtQ hS e.1 e.2 L (le_of_lt hL) hLs]
    exact hL
  have hsample := fn_sample_closed sqrtQ v0 v1 u us hpos
  obtain ⟨slen, shead, schain, slast⟩ := segOut_props sqrtQ hS v0 v1 L0 0 hL0 hL0s
  obtain ⟨rlen, rhead, rmem, rchain, w, hw, rlast⟩ :=
    restOut_props sqrtQ hS (u :: us) v1 (fn_distance sqrtQ v0 v1) (by simp)
      (fun e he => hpy e (List.mem_cons_of_mem _ he))
  have hrne : restOut sqrtQ (edgesOf (v1 :: u :: us)) (fn_distance sqrtQ v0 v1) ≠ [] := by
    intro h
    rw [h] at rhead
    exact Option.noConfusion rhead
  have hchainR : List.Chain' (fun p q : Pt × ℚ => p.2 < q.2 ∧ sqdist p.1 q.1 < 4)
      (fn_sample_major_axis sqrtQ (v0 :: v1 :: u :: us)) := by
    rw [hsample, List.chain'_append]
    refine ⟨schain, rchain, ?_⟩
    intro x hx y hy
    rw [rhead] at hy
    simp only [Option.mem_def, Option.some_inj] at hy
    subst hy
    obtain ⟨h1, h2⟩ := slast x (Option.mem_def.mp hx)
    refine ⟨?_, h2⟩
    show x.2 < fn_distance sqrtQ v0 v1
    rw [hfd0]
    linarith
  have hedges : edgesOf (v0 :: v1 :: u :: us) = (v0, v1) :: edgesOf (v1 :: u :: us) := rfl
  refine ⟨?_, ?_, ?_, ?_, ?_, ?_, ?_⟩
  · rw [hsample, List.length_append, slen, rlen, hedges]
    simp only [List.map_cons, List.sum_cons, hfd0]
    omega
  · intro x hx
    rw [hsample, List.map_append]
    rcases List.mem_cons.mp hx with h' | hx'
    · rw [h']
      apply List.mem_append_left
      have hv : (v0, (0 : ℚ)) ∈ segOut sqrtQ v0 v1 0 :=
        List.mem_of_mem_head? (by rw [shead]; rfl)
      exact List.mem_map_of_mem Prod.fst hv
    · exact List.mem_append_right _ (rmem x hx')
  · rw [hsample, List.map_append, List.head?_append, List.head?_map, shead]
    rfl
  · have := hchainR.imp (fun a b h => h.1)
    rw [List.chain'_map]
    exact this
  · have hch : List.Chain' (· < ·)
        ((fn_sample_major_axis sqrtQ (v0 :: v1 :: u :: us)).map Prod.snd) := by
      rw [List.chain'_map]
      exact hchainR.imp (fun a b h => h.1)
    have hpw := List.chain'_iff_pairwise.mp hch
    exact hpw.imp (fun h => ne_of_lt h)
  · rw [hsample, List.map_append,
      List.getLast?_append_of_ne_nil _ (fun hm => hrne (List.map_eq_nil_iff.mp hm)),
      List.getLast?_map, rlast]
    rw [hedges]
    simp only [List.map_cons, List.sum_cons, Option.map_some']
  · exact hchainR.imp (fun a b h => h.2)

/-- C2 counterexample: on the single-segment polyline from (0,0) to (7/2,0)
the sampler returns only three points; the final vertex (7/2,0) is missing,
the last station is 7/3 ≠ L = 7/2, the first gap is wider than the interval
(squared distance > 1), and the point count 3 differs from the claimed
⌈L/I⌉ + 1 = 5 by more than one. -/
theorem c2_counterexample :
    fn_sample_major_axis ratSqrt [((0 : ℚ), (0 : ℚ)), ((7 : ℚ)/2, 0)] =
      [(((0 : ℚ), (0 : ℚ)), (0 : ℚ)), (((7 : ℚ)/6, 0), 7/6), (((7 : ℚ)/3, 0), 7/3)] ∧
    ratSqrt (sqdist ((0 : ℚ), (0 : ℚ)) ((7 : ℚ)/2, 0)) = 7/2 ∧
    ((7 : ℚ)/2, (0 : ℚ)) ∉
      (fn_sample_major_axis ratSqrt [((0 : ℚ), (0 : ℚ)), ((7 : ℚ)/2, 0)]).map Prod.fst ∧
    ((fn_sample_major_axis ratSqrt [((0 : ℚ), (0 : ℚ)), ((7 : ℚ)/2, 0)]).map
        Prod.snd).getLast? = some (7/3) ∧
    (7 : ℚ)/3 ≠ 7/2 ∧
    (1 : ℚ) < sqdist ((0 : ℚ), (0 : ℚ)) ((7 : ℚ)/6, 0) ∧
    (fn_sample_major_axis ratSqrt [((0 : ℚ), (0 : ℚ)), ((7 : ℚ)/2, 0)]).length + 1
      < (⌈(7 : ℚ)/2⌉).toNat + 1 := by
  have s0 : ratSqrt 0 = 0 := sqrtQ_zero ratSqrt ratSqrt_exact
  have s1 : ratSqrt ((49 : ℚ)/4) = 7/2 := by
    rw [show (49/4 : ℚ) = (7/2)^2 from by norm_num]
    exact ratSqrt_exact (7/2) (by norm_num)
  have s2 : ratSqrt ((49 : ℚ)/36) = 7/6 := by
    rw [show (49/36 : ℚ) = (7/6)^2 from by norm_num]
    exact ratSqrt_exact (7/6) (by norm_num)
  have s3 : ratSqrt ((49 : ℚ)/9) = 7/3 := by
    rw [show (49/9 : ℚ) = (7/3)^2 from by norm_num]
    exact ratSqrt_exact (7/3) (by norm_num)
  have hfloor : ⌊(7 : ℚ)/2⌋ = 3 := by
    rw [Int.floor_eq_iff]
    norm_num
  have hsq : sqdist ((0 : ℚ), (0 : ℚ)) ((7 : ℚ)/2, 0) = 49/4 := by
    unfold sqdist
    norm_num
  have hmain : fn_sample_major_axis ratSqrt [((0 : ℚ), (0 : ℚ)), ((7 : ℚ)/2, 0)] =
      [(((0 : ℚ), (0 : ℚ)), (0 : ℚ)), (((7 : ℚ)/6, 0), 7/6), (((7 : ℚ)/3, 0), 7/3)] := by
    norm_num [fn_sample_major_axis, edgesOf, runEdges, edgeStep, fn_distance, segPts, nPoints,
      interpPt, sqdist, s0, s1, s2, s3, hfloor, List.range_succ,
      show Int.toNat 3 = 3 from rfl]
  have hceil : ⌈(7 : ℚ)/2⌉ = 4 := by
    rw [Int.ceil_eq_iff]
    · norm_num
  refine ⟨hmain, by rw [hsq]; exact s1, ?_, ?_, by norm_num, ?_, ?_⟩
  · rw [hmain]
    norm_num
  · rw [hmain]
    rfl
  · unfold sqdist
    norm_num
  · rw [hmain, hceil]
    norm_num [show Int.toNat 4 = 4 from rfl]

/-- Witness for `c2_amended`: the two-segment polyline (0,0)–(3/2,0)–(2,0),
with the exact rational square root `ratSqrt` and segment lengths 3/2, 1/2. -/
theorem c2_amended_witness :
    IsExactSqrt ratSqrt ∧
    ((fn_sample_major_axis ratSqrt [((0 : ℚ), (0 : ℚ)), ((3 : ℚ)/2, 0), ((2 : ℚ), 0)]).length
        = ((edgesOf [((0 : ℚ), (0 : ℚ)), ((3 : ℚ)/2, 0), ((2 : ℚ), 0)]).map
            (fun e => max (nPoints (fn_distance ratSqrt e.1 e.2)) 1)).sum + 1 ∧
    (∀ w ∈ [((0 : ℚ), (0 : ℚ)), ((3 : ℚ)/2, 0), ((2 : ℚ), 0)],
      w ∈ (fn_sample_major_axis ratSqrt
        [((0 : ℚ), (0 : ℚ)), ((3 : ℚ)/2, 0), ((2 : ℚ), 0)]).map Prod.fst) ∧
    ((fn_sample_major_axis ratSqrt
        [((0 : ℚ), (0 : ℚ)), ((3 : ℚ)/2, 0), ((2 : ℚ), 0)]).map Prod.snd).head? = some 0 ∧
    List.Chain' (· < ·) ((fn_sample_major_axis ratSqrt
        [((0 : ℚ), (0 : ℚ)), ((3 : ℚ)/2, 0), ((2 : ℚ), 0)]).map Prod.snd) ∧
    ((fn_sample_major_axis ratSqrt
        [((0 : ℚ), (0 : ℚ)), ((3 : ℚ)/2, 0), ((2 : ℚ), 0)]).map Prod.snd).Nodup ∧
    ((fn_sample_major_axis ratSqrt
        [((0 : ℚ), (0 : ℚ)), ((3 : ℚ)/2, 0), ((2 : ℚ), 0)]).map Prod.snd).getLast?
        = some (((edgesOf [((0 : ℚ), (0 : ℚ)), ((3 : ℚ)/2, 0), ((2 : ℚ), 0)]).map
            (fun e => fn_distance ratSqrt e.1 e.2)).sum) ∧
    List.Chain' (fun p q : Pt × ℚ => sqdist p.1 q.1 < 4)
      (fn_sample_major_axis ratSqrt [((0 : ℚ), (0 : ℚ)), ((3 : ℚ)/2, 0), ((2 : ℚ), 0)])) := by
  refine ⟨ratSqrt_exact, ?_⟩
  apply c2_amended ratSqrt ratSqrt_exact ((0 : ℚ), (0 : ℚ)) ((3 : ℚ)/2, 0) ((2 : ℚ), 0) []
  intro e he
  simp only [edgesOf, List.zip, List.tail, List.zipWith, List.mem_cons,
    List.not_mem_nil, or_false] at he
  rcases he with rfl | rfl
  · exact ⟨3/2, by norm_num, by unfold sqdist; norm_num⟩
  · exact ⟨1/2, by norm_num, by unfold sqdist; norm_num⟩
